import Mathlib

/-!
Verification development for the KinX exporter (kinx.mjs).

This file gives a shallow embedding, in Lean 4, of the algorithmic core of the
exporter: the Firestore value decoder with its field-level decryption, the two
paginated collection-retrieval strategies with their fallback logic, the
client-side stable sort used for pinned messages, and the concurrent media
download scheduler.  Theorems at the end of the file settle the stated
properties of these components.

Modelling conventions:
- JavaScript runtime values are modelled by the inductive type `JS`; a thrown
  JavaScript exception is modelled by the `Except` error branch.
- Host/stdlib primitives with no algorithmic content in the source (the
  `Number` coercion, base64 decoding, MD5, the AES-256-CBC block cipher with
  PKCS padding, UTF-8 transcoding) are abstract function parameters collected
  in `JSPrims`; everything the source itself computes is modelled concretely.
- JavaScript numbers are abstracted as integers; no claim in scope depends on
  IEEE-754 behaviour.
- `while` loops are embedded as fuel-indexed recursion; theorems quantify over
  any sufficiently large fuel.  A distinguished error string stands for the
  embedding artefact of fuel exhaustion (the source loop simply not having
  terminated yet).
- The concurrent download scheduler is embedded as a small-step state machine:
  one step per worker per segment between two `await` points, with an
  arbitrary interleaving schedule.  Ghost fields (`claimed`, `doneOk`,
  `doneFail`, `written`) record histories needed to state the claims and do
  not influence the computation.
-/

/-! ## Configuration constants (the CONFIG object of the source) -/

structure Config where
  QUERY_PAGE_SIZE : Nat
  MAX_LIST_PAGE_SIZE : Nat
  DOWNLOAD_CONCURRENCY : Nat

def CONFIG : Config :=
  { QUERY_PAGE_SIZE := 100
    MAX_LIST_PAGE_SIZE := 300
    DOWNLOAD_CONCURRENCY := 8 }

/-! ## JavaScript value model -/

/-- A JavaScript runtime value, as far as the decoder observes it.  Numbers are
abstracted as integers (see the header). -/
inductive JS where
  | null
  | undef
  | bool (b : Bool)
  | num (n : Int)
  | str (s : String)
  | arr (elems : List JS)
  | obj (entries : List (String × JS))

/-- A thrown JavaScript exception (the only kind the decoder can raise is a
TypeError from a member access or method call on a non-object). -/
inductive JSError where
  | typeError

/-- JavaScript truthiness. -/
def truthy : JS → Bool
  | .null | .undef => false
  | .bool b => b
  | .num n => n != 0
  | .str s => s != ""
  | .arr _ => true
  | .obj _ => true

/-- Is the value `null` or `undefined` (the values on which member access
throws)? -/
def isNullish : JS → Bool
  | .null | .undef => true
  | _ => false

/-- Member access `v[k]` on a non-nullish value: own property of an object, or
`undefined` (the non-numeric keys used by the decoder, "fields" and "values",
are not own properties of arrays, strings or primitives). -/
def propOr (v : JS) (k : String) : JS :=
  match v with
  | .obj l => (l.lookup k).getD .undef
  | _ => (.undef)

/-- The entry list of `Object.entries(v)`: key/value entries of an object, or
index/element entries of an array.  (For primitives the result is empty;
`Object.entries` of a string would yield per-character index entries, a corner
not reachable from any wire value, where fields/values are always objects or
arrays.) -/
def entriesOf : JS → List (String × JS)
  | .obj l => l
  | .arr xs => xs.enum.map (fun p => (toString p.1, p.2))
  | _ => []

/-- The entry list the `mapValue` branch iterates over:
`Object.entries(value.fields || {})`. -/
def mapEntries (value : JS) : List (String × JS) :=
  entriesOf (if truthy (propOr value "fields") then propOr value "fields" else .obj [])

/-- The value the `arrayValue` branch maps over: `value.values || []`. -/
def arrElems (value : JS) : JS :=
  if truthy (propOr value "values") then propOr value "values" else .arr []

/-- Does `value.values || []` have a `.map` method (is it an array)?  When it
does not, the `.map` call throws a TypeError. -/
def arrIsArr (value : JS) : Bool :=
  match arrElems value with
  | .arr _ => true
  | _ => false

/-- The element list of `value.values || []` when it is an array. -/
def arrElemsList (value : JS) : List JS :=
  match arrElems value with
  | .arr xs => xs
  | _ => []

/-! ### Size lemmas for the decoder's termination -/

theorem sizeOf_lookup_lt {l : List (String × JS)} {k : String} {w : JS}
    (h : l.lookup k = some w) : sizeOf w < sizeOf (JS.obj l) := by
  induction l with
  | nil => simp [List.lookup] at h
  | cons a t ih =>
    rw [List.lookup] at h
    split at h
    · cases h; cases a; simp; omega
    · have := ih h
      simp at this ⊢
      omega

theorem sizeOf_mem_snd {l : List (String × JS)} {k : String} {w : JS}
    (h : (k, w) ∈ l) : sizeOf w < sizeOf l := by
  induction l with
  | nil => simp at h
  | cons a t ih =>
    rcases List.mem_cons.mp h with h | h
    · subst h; simp; omega
    · have := ih h; simp; omega

theorem sizeOf_mem_list {xs : List JS} {w : JS} (h : w ∈ xs) : sizeOf w < sizeOf xs := by
  induction xs with
  | nil => simp at h
  | cons a t ih =>
    rcases List.mem_cons.mp h with h | h
    · subst h; simp; omega
    · have := ih h; simp; omega

theorem snd_mem_of_mem_enumFrom {l : List JS} {n : Nat} {p : Nat × JS}
    (h : p ∈ List.enumFrom n l) : p.2 ∈ l := by
  induction l generalizing n with
  | nil => simp at h
  | cons a t ih =>
    rw [List.enumFrom] at h
    rcases List.mem_cons.mp h with h | h
    · subst h; exact List.mem_cons_self _ _
    · exact List.mem_cons_of_mem _ (ih h)

theorem sizeOf_entriesOf {f : JS} {k : String} {w : JS}
    (h : (k, w) ∈ entriesOf f) : sizeOf w ≤ sizeOf f := by
  cases f with
  | obj l =>
    rw [entriesOf] at h
    have := sizeOf_mem_snd h
    simp
    omega
  | arr xs =>
    rw [entriesOf] at h
    simp only [List.mem_map] at h
    obtain ⟨p, hmem, heq⟩ := h
    have hw : w = p.2 := by cases heq; rfl
    subst hw
    have := sizeOf_mem_list (snd_mem_of_mem_enumFrom (by simpa [List.enum] using hmem))
    simp
    omega
  | null => simp [entriesOf] at h
  | undef => simp [entriesOf] at h
  | bool b => simp [entriesOf] at h
  | num n => simp [entriesOf] at h
  | str s => simp [entriesOf] at h

theorem sizeOf_propOr_le (v : JS) (k : String) :
    propOr v k = .undef ∨ sizeOf (propOr v k) < sizeOf v := by
  cases v with
  | obj l =>
    rw [propOr]
    cases h : l.lookup k with
    | none => left; rfl
    | some w =>
      right
      have := sizeOf_lookup_lt h
      simpa using this
  | null => left; rfl
  | undef => left; rfl
  | bool b => left; rfl
  | num n => left; rfl
  | str s => left; rfl
  | arr xs => left; rfl

theorem sizeOf_mapEntries {value : JS} {k : String} {w : JS}
    (h : (k, w) ∈ mapEntries value) : sizeOf w < sizeOf value := by
  rw [mapEntries] at h
  split at h
  · rcases sizeOf_propOr_le value "fields" with he | hlt
    · rw [he] at h
      simp [entriesOf] at h
    · have := sizeOf_entriesOf h
      omega
  · simp [entriesOf] at h

theorem sizeOf_arrElems {value : JS} {xs : List JS} {w : JS}
    (harr : arrElems value = .arr xs) (h : w ∈ xs) : sizeOf w < sizeOf value := by
  rw [arrElems] at harr
  split at harr
  · rcases sizeOf_propOr_le value "values" with he | hlt
    · rw [he] at harr; cases harr
    · rw [harr] at hlt
      have := sizeOf_mem_list h
      simp at hlt
      omega
  · cases harr
    simp at h

theorem sizeOf_arrElemsList {value : JS} {w : JS}
    (h : w ∈ arrElemsList value) : sizeOf w < sizeOf value := by
  rw [arrElemsList] at h
  split at h
  · rename_i xs harr
    exact sizeOf_arrElems harr h
  · simp at h

/-! ## Decryption (evpBytesToKey / decryptEncString) -/

/-- Host primitives used by the decoder and decryption code.  These are
external stdlib facilities (node:crypto, Buffer, Number); the source contains
no algorithm for them, so they are abstract here. -/
structure JSPrims where
  /-- The JavaScript `Number(x)` coercion (used for integerValue/doubleValue). -/
  jsNumber : JS → JS
  /-- `Buffer.from(s, 'base64')` — lenient base64 decoding, total. -/
  b64decode : String → List Nat
  /-- `crypto.createHash('md5') ... digest()`. -/
  md5 : List Nat → List Nat
  /-- `crypto.createDecipheriv('aes-256-cbc', key, iv)` followed by
  update/final with auto PKCS padding removal; `none` models the throw on a
  padding or block-alignment failure. -/
  aesCbcDecrypt : List Nat → List Nat → List Nat → Option (List Nat)
  /-- `Buffer.from(s, 'utf8')`. -/
  utf8Encode : String → List Nat
  /-- `buffer.toString('utf8')`. -/
  utf8Decode : List Nat → String

/-- The loop body of `evpBytesToKey`: while fewer than 48 bytes are derived,
append `md5(digest ++ password ++ salt)`.  The fuel argument is an embedding
artefact: 48 iterations always suffice because every real MD5 digest is
non-empty (16 bytes). -/
def evpDeriveLoop (md5 : List Nat → List Nat) (password salt : List Nat) :
    Nat → List Nat → List Nat → List Nat
  | 0, _, derived => derived
  | fuel + 1, digest, derived =>
    if derived.length < 48 then
      let digest' := md5 (digest ++ password ++ salt)
      evpDeriveLoop md5 password salt fuel digest' (derived ++ digest')
    else derived

/-- `evpBytesToKey(passwordBuffer, salt)`: derive 48 bytes by iterated MD5 and
split them into a 32-byte key and a 16-byte IV. -/
def evpBytesToKey (md5 : List Nat → List Nat) (password salt : List Nat) :
    List Nat × List Nat :=
  let derived := evpDeriveLoop md5 password salt 48 [] []
  (derived.take 32, ((derived.drop 32).take 16))

/-- The bytes of the ASCII marker "Salted__". -/
def saltedMagic : List Nat := [0x53, 0x61, 0x6c, 0x74, 0x65, 0x64, 0x5f, 0x5f]

/-- `decryptEncString(opensslBase64, uidPassword)`: base64-decode, check the
8-byte "Salted__" marker (the source compares the UTF-8 decoding of the first
8 bytes with the literal; since the literal is ASCII and UTF-8 is injective on
valid encodings this equals a byte comparison), split salt and body, derive
key/IV, decrypt.  Any failure — including `createDecipheriv` rejecting a
key/IV of the wrong size, and the padding failure modelled by
`aesCbcDecrypt = none` — is caught and becomes `none`. -/
def decryptEncString (P : JSPrims) (opensslBase64 uidPassword : String) : Option String :=
  let raw := P.b64decode opensslBase64
  if raw.length < 16 ∨ raw.take 8 ≠ saltedMagic then none
  else
    let salt := (raw.drop 8).take 8
    let data := raw.drop 16
    let ki := evpBytesToKey P.md5 (P.utf8Encode uidPassword) salt
    if ki.1.length ≠ 32 ∨ ki.2.length ≠ 16 then none
    else
      match P.aesCbcDecrypt ki.1 ki.2 data with
      | none => none
      | some plain => some (P.utf8Decode plain)

/-! ## The recursive value decoder (decodeValue / decodeFields) -/

/-- `String.prototype.startsWith`, embedded over the character list (so that
it evaluates by reduction). -/
def strStartsWith (s pre : String) : Bool := pre.data.isPrefixOf s.data

/-- The `stringValue` branch of the decoder: a string carrying the "!enc:"
marker is decrypted, falling back to the original prefixed text on failure;
any other value is returned as-is. -/
def decodeStringValue (P : JSPrims) (value : JS) (uid : String) : JS :=
  match value with
  | .str s =>
    if strStartsWith s "!enc:" then
      match decryptEncString P (s.drop 5) uid with
      | some t => .str t
      | none => .str s
    else .str s
  | x => x

/-- `decodeValue(firestoreValue, uid)`.  Nullish and non-object inputs are
returned unchanged; otherwise the first key of the object selects the
treatment; unrecognized keys fall through to the default branch which returns
the input unchanged.  An array input passes the `typeof === 'object'` guard
but its keys are indices, never a recognized tag, so it also falls through to
the default branch. -/
def decodeValue (P : JSPrims) (v : JS) (uid : String) : Except JSError JS :=
  match v with
  | .null => .ok .null
  | .undef => .ok .undef
  | .bool b => .ok (.bool b)
  | .num n => .ok (.num n)
  | .str s => .ok (.str s)
  | .arr xs => .ok (.arr xs)
  | .obj [] => .ok (.obj [])
  | .obj ((key, value) :: rest) =>
    if key = "stringValue" then .ok (decodeStringValue P value uid)
    else if key = "integerValue" then .ok (P.jsNumber value)
    else if key = "doubleValue" then .ok (P.jsNumber value)
    else if key = "booleanValue" then .ok (.bool (truthy value))
    else if key = "timestampValue" then .ok value
    else if key = "nullValue" then .ok .null
    else if key = "mapValue" then
      if isNullish value then .error .typeError
      else
        ((mapEntries value).attach.mapM
          (fun e => (decodeValue P e.1.2 uid).map (fun dw => (e.1.1, dw)))).map
          (fun decoded => .obj decoded)
    else if key = "arrayValue" then
      if isNullish value then .error .typeError
      else if arrIsArr value then
        ((arrElemsList value).attach.mapM (fun e => decodeValue P e.1 uid)).map
          (fun decoded => .arr decoded)
      else .error .typeError
    else .ok (.obj ((key, value) :: rest))
termination_by sizeOf v
decreasing_by
  · obtain ⟨⟨k1, w1⟩, hmem⟩ := e
    have := sizeOf_mapEntries hmem
    simp
    omega
  · obtain ⟨w1, hmem⟩ := e
    have := sizeOf_arrElemsList hmem
    simp
    omega

/-- `decodeFields(fields, uid)`: decode every entry of `fields || {}`. -/
def decodeFields (P : JSPrims) (fields : JS) (uid : String) : Except JSError JS :=
  ((entriesOf (if truthy fields then fields else .obj [])).mapM
    (fun e => (decodeValue P e.2 uid).map (fun dw => (e.1, dw)))).map
    (fun decoded => .obj decoded)

/-! ### mapM helper lemmas -/

theorem attachWith_mapM_eq {α β ε : Type} {P : α → Prop} (f : α → Except ε β) :
    ∀ (l : List α) (H : ∀ a ∈ l, P a),
      (l.attachWith P H).mapM (fun e => f e.1) = l.mapM f := by
  intro l
  induction l with
  | nil => intro H; rfl
  | cons a t ih =>
    intro H
    rw [List.attachWith_cons, List.mapM_cons, List.mapM_cons]
    simp only [ih]

theorem attach_mapM_eq {α β ε : Type} (l : List α) (f : α → Except ε β) :
    l.attach.mapM (fun e => f e.1) = l.mapM f := by
  unfold List.attach
  exact attachWith_mapM_eq f l _

theorem mapM_ok_of_forall {α β ε : Type} {l : List α} {f : α → Except ε β}
    (h : ∀ a ∈ l, ∃ b, f a = .ok b) : ∃ bs, l.mapM f = .ok bs := by
  induction l with
  | nil => exact ⟨[], rfl⟩
  | cons a t ih =>
    obtain ⟨b, hb⟩ := h a (List.mem_cons_self a t)
    obtain ⟨bs, hbs⟩ := ih (fun x hx => h x (List.mem_cons_of_mem a hx))
    refine ⟨b :: bs, ?_⟩
    rw [List.mapM_cons, hb, hbs]
    rfl

/-! ### Branch equations for decodeValue

The decoder is defined by well-founded recursion, so these rewriting lemmas
give its behaviour on each shape of input; all later proofs go through them. -/

theorem decodeValue_null (P : JSPrims) (uid : String) :
    decodeValue P .null uid = .ok .null := by
  rw [decodeValue.eq_def]

theorem decodeValue_undef (P : JSPrims) (uid : String) :
    decodeValue P .undef uid = .ok .undef := by
  rw [decodeValue.eq_def]

theorem decodeValue_bool (P : JSPrims) (b : Bool) (uid : String) :
    decodeValue P (.bool b) uid = .ok (.bool b) := by
  rw [decodeValue.eq_def]

theorem decodeValue_num (P : JSPrims) (n : Int) (uid : String) :
    decodeValue P (.num n) uid = .ok (.num n) := by
  rw [decodeValue.eq_def]

theorem decodeValue_str (P : JSPrims) (s : String) (uid : String) :
    decodeValue P (.str s) uid = .ok (.str s) := by
  rw [decodeValue.eq_def]

theorem decodeValue_arr (P : JSPrims) (xs : List JS) (uid : String) :
    decodeValue P (.arr xs) uid = .ok (.arr xs) := by
  rw [decodeValue.eq_def]

theorem decodeValue_emptyObj (P : JSPrims) (uid : String) :
    decodeValue P (.obj []) uid = .ok (.obj []) := by
  rw [decodeValue.eq_def]

theorem decodeValue_stringValue (P : JSPrims) (value : JS) (rest : List (String × JS))
    (uid : String) :
    decodeValue P (.obj (("stringValue", value) :: rest)) uid =
      .ok (decodeStringValue P value uid) := by
  rw [decodeValue.eq_def]
  rfl

theorem decodeValue_integerValue (P : JSPrims) (value : JS) (rest : List (String × JS))
    (uid : String) :
    decodeValue P (.obj (("integerValue", value) :: rest)) uid = .ok (P.jsNumber value) := by
  rw [decodeValue.eq_def]
  rfl

theorem decodeValue_doubleValue (P : JSPrims) (value : JS) (rest : List (String × JS))
    (uid : String) :
    decodeValue P (.obj (("doubleValue", value) :: rest)) uid = .ok (P.jsNumber value) := by
  rw [decodeValue.eq_def]
  rfl

theorem decodeValue_booleanValue (P : JSPrims) (value : JS) (rest : List (String × JS))
    (uid : String) :
    decodeValue P (.obj (("booleanValue", value) :: rest)) uid = .ok (.bool (truthy value)) := by
  rw [decodeValue.eq_def]
  rfl

theorem decodeValue_timestampValue (P : JSPrims) (value : JS) (rest : List (String × JS))
    (uid : String) :
    decodeValue P (.obj (("timestampValue", value) :: rest)) uid = .ok value := by
  rw [decodeValue.eq_def]
  rfl

theorem decodeValue_nullValue (P : JSPrims) (value : JS) (rest : List (String × JS))
    (uid : String) :
    decodeValue P (.obj (("nullValue", value) :: rest)) uid = .ok .null := by
  rw [decodeValue.eq_def]
  rfl

theorem decodeValue_mapValue (P : JSPrims) (value : JS) (rest : List (String × JS))
    (uid : String) :
    decodeValue P (.obj (("mapValue", value) :: rest)) uid =
      (if isNullish value then .error .typeError
       else
        ((mapEntries value).mapM
          (fun e => (decodeValue P e.2 uid).map (fun dw => (e.1, dw)))).map
          (fun decoded => .obj decoded)) := by
  have h1 : decodeValue P (.obj (("mapValue", value) :: rest)) uid =
      (if isNullish value then .error .typeError
       else
        ((mapEntries value).attach.mapM
          (fun e => (decodeValue P e.1.2 uid).map (fun dw => (e.1.1, dw)))).map
          (fun decoded => .obj decoded)) := by
    rw [decodeValue.eq_def]
    rfl
  rw [h1,
    attach_mapM_eq (mapEntries value) (fun e => (decodeValue P e.2 uid).map (fun dw => (e.1, dw)))]

theorem decodeValue_arrayValue (P : JSPrims) (value : JS) (rest : List (String × JS))
    (uid : String) :
    decodeValue P (.obj (("arrayValue", value) :: rest)) uid =
      (if isNullish value then .error .typeError
       else if arrIsArr value then
        ((arrElemsList value).mapM (fun e => decodeValue P e uid)).map
          (fun decoded => .arr decoded)
       else .error .typeError) := by
  have h1 : decodeValue P (.obj (("arrayValue", value) :: rest)) uid =
      (if isNullish value then .error .typeError
       else if arrIsArr value then
        ((arrElemsList value).attach.mapM (fun e => decodeValue P e.1 uid)).map
          (fun decoded => .arr decoded)
       else .error .typeError) := by
    rw [decodeValue.eq_def]
    rfl
  rw [h1, attach_mapM_eq (arrElemsList value) (fun e => decodeValue P e uid)]

/-- The set of first keys the decoder recognizes. -/
def recognizedKeys : List String :=
  ["stringValue", "integerValue", "doubleValue", "booleanValue",
   "timestampValue", "nullValue", "mapValue", "arrayValue"]

theorem decodeValue_default (P : JSPrims) (key : String) (value : JS)
    (rest : List (String × JS)) (uid : String) (h : key ∉ recognizedKeys) :
    decodeValue P (.obj ((key, value) :: rest)) uid = .ok (.obj ((key, value) :: rest)) := by
  simp only [recognizedKeys, List.mem_cons, List.not_mem_nil, or_false, not_or] at h
  obtain ⟨h1, h2, h3, h4, h5, h6, h7, h8⟩ := h
  rw [decodeValue.eq_def]
  simp only [h1, h2, h3, h4, h5, h6, h7, h8, if_false]

/-! ## Specification-side key derivation (for the refinement claim)

These definitions follow the specification's words for the decryption
algorithm ("Key material is derived by iteratively hashing
digest_i = MD5(digest_(i-1) || secret || salt) with digest_0 empty,
concatenating digests until at least 48 bytes are produced, then splitting
into a 32-byte key and a 16-byte IV"), to be compared with the source's
`evpBytesToKey`. -/

/-- The i-th digest of the specification's iteration: digest_0 is empty and
digest_(i+1) = MD5(digest_i || secret || salt). -/
def specKdfDigest (md5 : List Nat → List Nat) (secret salt : List Nat) : Nat → List Nat
  | 0 => []
  | i + 1 => md5 (specKdfDigest md5 secret salt i ++ secret ++ salt)

/-- The concatenation of the first n digests (digest_1 up to digest_n). -/
def specKdfStream (md5 : List Nat → List Nat) (secret salt : List Nat) : Nat → List Nat
  | 0 => []
  | i + 1 => specKdfStream md5 secret salt i ++ specKdfDigest md5 secret salt (i + 1)

/-! ### Unfolding lemmas for the source KDF loop -/

theorem evpDeriveLoop_stop (md5 : List Nat → List Nat) (pw salt : List Nat)
    (fuel : Nat) (digest derived : List Nat) (h : ¬ derived.length < 48) :
    evpDeriveLoop md5 pw salt (fuel + 1) digest derived = derived := by
  rw [evpDeriveLoop]
  exact if_neg h

theorem evpDeriveLoop_go (md5 : List Nat → List Nat) (pw salt : List Nat)
    (fuel : Nat) (digest derived : List Nat) (h : derived.length < 48) :
    evpDeriveLoop md5 pw salt (fuel + 1) digest derived =
      evpDeriveLoop md5 pw salt fuel (md5 (digest ++ pw ++ salt))
        (derived ++ md5 (digest ++ pw ++ salt)) := by
  rw [evpDeriveLoop]
  exact if_pos h

/-- Under a 16-byte digest function (real MD5), the source loop derives
exactly the first three digests of the specification's iteration. -/
theorem evpDeriveLoop_eq_spec (md5 : List Nat → List Nat) (pw salt : List Nat)
    (h16 : ∀ b, (md5 b).length = 16) :
    evpDeriveLoop md5 pw salt 48 [] [] = specKdfStream md5 pw salt 3 := by
  have d1 : md5 ([] ++ pw ++ salt) = specKdfDigest md5 pw salt 1 := by
    rw [specKdfDigest, specKdfDigest]
  rw [evpDeriveLoop_go md5 pw salt 47 [] [] (by simp)]
  rw [evpDeriveLoop_go md5 pw salt 46 _ _ (by simp [h16])]
  rw [evpDeriveLoop_go md5 pw salt 45 _ _ (by simp [h16])]
  rw [evpDeriveLoop_stop md5 pw salt 44 _ _ (by simp [h16])]
  rw [specKdfStream, specKdfStream, specKdfStream, specKdfStream]
  rw [d1]
  have d2 : md5 (specKdfDigest md5 pw salt 1 ++ pw ++ salt) = specKdfDigest md5 pw salt 2 := by
    conv_rhs => rw [specKdfDigest]
  rw [d2]
  have d3 : md5 (specKdfDigest md5 pw salt 2 ++ pw ++ salt) = specKdfDigest md5 pw salt 3 := by
    conv_rhs => rw [specKdfDigest]
  rw [d3]

/-! ## Wire value shapes (the WireValue data model of the specification) -/

/-- The representable wire value shapes: the scalar kinds with their wire
payloads (Firestore sends integerValue as a decimal string and doubleValue as
a JSON number), map and array kinds with optional fields/values, and any
single unrecognized kind as an opaque value. -/
inductive IsWire : JS → Prop
  | strW (s : String) : IsWire (.obj [("stringValue", .str s)])
  | intW (s : String) : IsWire (.obj [("integerValue", .str s)])
  | dblW (n : Int) : IsWire (.obj [("doubleValue", .num n)])
  | boolW (b : Bool) : IsWire (.obj [("booleanValue", .bool b)])
  | tsW (s : String) : IsWire (.obj [("timestampValue", .str s)])
  | nullW : IsWire (.obj [("nullValue", .null)])
  | mapW (fl : List (String × JS)) :
      (∀ p ∈ fl, IsWire p.2) → IsWire (.obj [("mapValue", .obj [("fields", .obj fl)])])
  | mapEmptyW : IsWire (.obj [("mapValue", .obj [])])
  | arrW (xs : List JS) :
      (∀ x ∈ xs, IsWire x) → IsWire (.obj [("arrayValue", .obj [("values", .arr xs)])])
  | arrEmptyW : IsWire (.obj [("arrayValue", .obj [])])
  | opaqueW (key : String) (value : JS) :
      key ∉ recognizedKeys → IsWire (.obj [(key, value)])

/-! ## Collection retrieval (listAll / runQueryAll / fetchJournalAll)

The HTTP endpoints (Firestore's list and runQuery) are external collaborators:
they are modelled as abstract server functions of the semantically relevant
request data, and the two client-side pagination loops of the source are
embedded over them.  For the completeness claim a fake paginating backend over
a fixed document list instantiates the server side. -/

/-- A Firestore wire value as it appears in cursor positions and order fields.
Order-field payloads are abstracted as integers (timestamps in the backend);
`refV` is a document reference (`referenceValue`), `nullV` is `nullValue`. -/
inductive FireVal where
  | nullV
  | intV (n : Int)
  | refV (s : String)
deriving DecidableEq

/-- A Firestore document as the retrieval code observes it: full resource
name, optional creation timestamp, and its order-relevant fields. -/
structure FDoc where
  name : String
  createTime : Option String
  fields : List (String × FireVal)
deriving DecidableEq

/-- Request headers, threaded through but never inspected by the core. -/
def Headers := List (String × String)

/-- `valueForCursor(doc, field)`: the cursor value for a document — a
reference to the document itself for `__name__`, otherwise the document's
field value or `nullValue` when absent. -/
def valueForCursor (doc : FDoc) (field : String) : FireVal :=
  if field = "__name__" then .refV doc.name
  else (doc.fields.lookup field).getD .nullV

/-- The structured query built by `runQueryAll`: collection, orderBy list
(field path and ascending flag), page limit, and the optional `startAt`
cursor (boundary values plus the `before` flag, `false` for startAfter). -/
structure StructuredQuery where
  collectionId : String
  orderBy : List (String × Bool)
  limit : Nat
  startAt : Option (List FireVal × Bool)

/-- The runQuery endpoint: rows may lack a document (the source filters them
out with `.filter(Boolean)`). -/
def QueryServer := String → Headers → StructuredQuery → Except String (List (Option FDoc))

/-- Parameters of the list endpoint as the source sets them. -/
structure ListParams where
  pageSize : Nat
  orderBy : Option String
  pageToken : Option String

/-- Response of the list endpoint: `documents` may be absent, and
`nextPageToken` may be absent on the last page. -/
structure ListResp where
  documents : Option (List FDoc)
  nextPageToken : Option String

/-- The list endpoint. -/
def ListServer := String → Headers → ListParams → Except String ListResp

/-- The embedding artefact standing for a loop that has not terminated within
the given fuel; theorems always supply enough fuel for it not to occur. -/
def outOfFuel : String := "OUT_OF_FUEL"

/-- The loop of `listAll`: request a page (page size 300, optional order-by,
token included only when non-empty), append `response.documents` when
present, continue while `response.nextPageToken || ''` is non-empty. -/
def listAllGo (server : ListServer) (collectionPath : String) (headers : Headers)
    (orderByClause : Option String) :
    Nat → String → List FDoc → Except String (List FDoc)
  | 0, _, _ => .error outOfFuel
  | fuel + 1, pageToken, documents =>
    let params : ListParams :=
      { pageSize := CONFIG.MAX_LIST_PAGE_SIZE
        orderBy := match orderByClause with
          | some s => if s = "" then none else some s
          | none => none
        pageToken := if pageToken = "" then none else some pageToken }
    match server collectionPath headers params with
    | .error e => .error e
    | .ok resp =>
      let documents' := documents ++ resp.documents.getD []
      let pageToken' := resp.nextPageToken.getD ""
      if pageToken' = "" then .ok documents'
      else listAllGo server collectionPath headers orderByClause fuel pageToken' documents'

/-- `listAll(collectionPath, headers, orderByClause)`. -/
def listAll (server : ListServer) (collectionPath : String) (headers : Headers)
    (orderByClause : Option String) (fuel : Nat) : Except String (List FDoc) :=
  listAllGo server collectionPath headers orderByClause fuel "" []

/-- The loop of `runQueryAll`: issue the structured query (primary order
field ascending with `__name__` ascending as tie-break, page limit 100,
exclusive start-after cursor from the last document of the previous page),
stop on an empty page or a page shorter than the limit. -/
def runQueryAllGo (server : QueryServer) (parentDocPath collectionId : String)
    (headers : Headers) (orderField : String) :
    Nat → Option FDoc → List FDoc → Except String (List FDoc)
  | 0, _, _ => .error outOfFuel
  | fuel + 1, lastDoc, documents =>
    let query : StructuredQuery :=
      { collectionId := collectionId
        orderBy := [(orderField, true), ("__name__", true)]
        limit := CONFIG.QUERY_PAGE_SIZE
        startAt := lastDoc.map
          (fun d => ([valueForCursor d orderField, valueForCursor d "__name__"], false)) }
    match server parentDocPath headers query with
    | .error e => .error e
    | .ok rows =>
      match rows.filterMap id with
      | [] => .ok documents
      | d :: ds =>
        let documents' := documents ++ (d :: ds)
        let lastDoc' := (d :: ds).getLast (by simp)
        if (d :: ds).length < CONFIG.QUERY_PAGE_SIZE then .ok documents'
        else runQueryAllGo server parentDocPath collectionId headers orderField fuel
          (some lastDoc') documents'

/-- `runQueryAll(parentDocPath, collectionId, headers, orderField)` (the
source defaults `orderField` to 'timestamp'). -/
def runQueryAll (server : QueryServer) (parentDocPath collectionId : String)
    (headers : Headers) (orderField : String) (fuel : Nat) : Except String (List FDoc) :=
  runQueryAllGo server parentDocPath collectionId headers orderField fuel none []

/-- `String.prototype.includes`. -/
def strIncludes (hay needle : String) : Bool :=
  (List.range (hay.length + 1)).any (fun i => needle.data.isPrefixOf (hay.data.drop i))

/-- `fetchJournalAll({parentDocPath, collectionId, headers})`: try the query
strategy ordered by 'created'; if it throws an error whose string form
includes PERMISSION_DENIED or 403, fall back to the listing strategy over the
same path with an equivalent order clause; rethrow any other error. -/
def fetchJournalAll (qserver : QueryServer) (lserver : ListServer)
    (parentDocPath collectionId : String) (headers : Headers) (fuel : Nat) :
    Except String (List FDoc) :=
  match runQueryAll qserver parentDocPath collectionId headers "created" fuel with
  | .ok docs => .ok docs
  | .error e =>
    if strIncludes e "PERMISSION_DENIED" || strIncludes e "403" then
      listAll lserver (parentDocPath ++ "/" ++ collectionId) headers
        (some "created asc,__name__ asc") fuel
    else .error e

/-! ### A fake paginating backend -/

/-- The integer sort value of a wire value: integers sort by value, anything
else (null, references in the value slot) sorts below all integers, as
Firestore sorts nulls first. -/
def fireValKey : FireVal → WithBot Int
  | .intV n => (n : WithBot Int)
  | _ => ⊥

/-- The document name carried by a reference value. -/
def fireValRef : FireVal → String
  | .refV s => s
  | _ => ""

/-- The sort key the backend uses for a document under an (orderField,
`__name__`) ascending order: the order-field value paired lexicographically
with the document name. -/
def docKey (field : String) (d : FDoc) : WithBot Int ×ₗ String :=
  toLex (((d.fields.lookup field).map fireValKey).getD ⊥, d.name)

/-- Interpretation of a client cursor (a pair of boundary values) as a sort
key on the backend side. -/
def cursorKeyOfVals (vals : List FireVal) : WithBot Int ×ₗ String :=
  match vals with
  | [v, r] => toLex (fireValKey v, fireValRef r)
  | _ => toLex (⊥, "")

/-- The document filter induced by a `startAt` cursor: everything for no
cursor, at-or-after for an inclusive cursor (`before = true`), and strictly
after for the exclusive start-after cursor the client sends. -/
def serverKeep (field : String) (sa : Option (List FireVal × Bool)) (d : FDoc) : Bool :=
  match sa with
  | none => true
  | some cc =>
    if cc.2 then decide (cursorKeyOfVals cc.1 ≤ docKey field d)
    else decide (cursorKeyOfVals cc.1 < docKey field d)

/-- The fake runQuery backend over a fixed document list: serve the documents
after the cursor position in the requested order, up to the page limit. -/
def fakeQueryServer (docs : List FDoc) : QueryServer :=
  fun _ _ q =>
    .ok (((docs.filter
      (serverKeep (((q.orderBy.head?).getD ("", true)).1) q.startAt)).take q.limit).map some)

/-- Continuation tokens of the fake list backend: the resume index in unary
(so that the token round-trips without a parser and the empty token is index
zero). -/
def unaryToken (n : Nat) : String := String.mk (List.replicate n 'x')

/-- The fake list backend over a fixed document list: serve pages of the list
in order, with a continuation token encoding the next start index, absent on
the final page. -/
def fakeListServer (docs : List FDoc) : ListServer :=
  fun _ _ p =>
    let i := (p.pageToken.getD "").length
    let page := (docs.drop i).take p.pageSize
    let j := i + p.pageSize
    .ok { documents := some page
          nextPageToken := if j < docs.length then some (unaryToken j) else none }

/-! ## Client-side stable sort by creation time (sortByCreateTimeAsc) -/

/-- The comparator key: `new Date(createTime || 0).getTime()`, with the Date
parser abstract (`parse`); an absent or empty `createTime` is the falsy case
giving epoch zero. -/
def dateMs (parse : String → Int) (createTime : Option String) : Int :=
  match createTime with
  | some s => if s = "" then 0 else parse s
  | none => 0

/-- Insertion into an already sorted list, placing the new element before the
first element with a key not smaller — the position a stable sort gives an
element coming earlier in the input. -/
def insertByTime (parse : String → Int) (d : FDoc) : List FDoc → List FDoc
  | [] => [d]
  | e :: es =>
    if dateMs parse d.createTime ≤ dateMs parse e.createTime then d :: e :: es
    else e :: insertByTime parse d es

/-- `sortByCreateTimeAsc(docs)`: the source copies the array and sorts it with
the comparator `(a, b) => timeA - timeB`; JavaScript's sort is specified
stable, so it is embedded as a stable insertion sort by the comparator key. -/
def sortByCreateTimeAsc (parse : String → Int) : List FDoc → List FDoc
  | [] => []
  | d :: ds => insertByTime parse d (sortByCreateTimeAsc parse ds)

/-- The pinned-messages pipeline of `exportKin`: retrieve the collection via
plain listing with no order clause, then apply the client-side sort. -/
def fetchPinnedSorted (server : ListServer) (kinPath : String) (headers : Headers)
    (parse : String → Int) (fuel : Nat) : Except String (List FDoc) :=
  match listAll server (kinPath ++ "/PinnedMessages") headers none fuel with
  | .ok docs => .ok (sortByCreateTimeAsc parse docs)
  | .error e => .error e

/-! ## The download scheduler (downloadMedia)

Each worker is an async loop; between two `await` points it runs atomically
on the single-threaded event loop.  The machine below has one step per such
segment: claim (synchronous length-check and `pop` plus the `fs.access`
call), the access result (skip or start the fetch), the fetch result (either
failure or proceeding to the write), and the write.  A schedule is an
arbitrary list of worker indices. -/

/-- A download task: source URL and destination path. -/
structure DItem where
  url : String
  dest : String
deriving DecidableEq

/-- Outcome of the fetch/buffer/write sequence for a task, abstract per item:
success, a non-success HTTP status (the source throws `HTTP <status>`), or
any other I/O failure with its message. -/
inductive FetchOutcome where
  | ok
  | httpErr (status : Nat)
  | ioErr (msg : String)
deriving DecidableEq

/-- The `e.message` text logged for a failed task. -/
def fetchErrMsg : FetchOutcome → String
  | .ok => ""
  | .httpErr status => "HTTP " ++ toString status
  | .ioErr msg => msg

/-- Split a character list at a separator character. -/
def splitChar (c : Char) : List Char → List (List Char)
  | [] => [[]]
  | ch :: rest =>
    let segs := splitChar c rest
    if ch = c then [] :: segs
    else
      match segs with
      | [] => [[ch]]
      | s :: ss => (ch :: s) :: ss

/-- `path.basename`: the last path component. -/
def basename (p : String) : String := String.mk ((splitChar '/' p.data).getLastD [])

/-- Phase of one worker: at the loop head, awaiting the access check for a
claimed item, awaiting the fetch, awaiting the write, or finished. -/
inductive WPhase where
  | idle
  | check (it : DItem)
  | fetching (it : DItem)
  | writing (it : DItem)
  | done
deriving DecidableEq

/-- The claimed item of a non-idle phase. -/
def phaseItem : WPhase → Option DItem
  | .idle | .done => none
  | .check it | .fetching it | .writing it => some it

/-- The scheduler state.  `pool` is the shared `itemsToProcess` array (popped
from the end), `fs` the set of existing destination paths, `completed` and
`failed` the two counters, `fetchLog` the network fetches started, `warnLog`
the failure log lines (basename of the destination and error message).  The
remaining fields are ghost history: items popped, tasks finished successfully
or in failure, and destinations written. -/
structure DState where
  pool : List DItem
  workers : List WPhase
  fs : List String
  completed : Nat
  failed : Nat
  fetchLog : List DItem
  warnLog : List (String × String)
  claimed : List DItem
  doneOk : List DItem
  doneFail : List DItem
  written : List DItem
deriving DecidableEq

/-- One atomic segment of worker `w`. -/
def stepWorker (fetchRes : DItem → FetchOutcome) (s : DState) (w : Nat) : DState :=
  match s.workers[w]? with
  | none => s
  | some ph =>
    match ph with
    | .done => s
    | .idle =>
      match s.pool.getLast? with
      | none => { s with workers := s.workers.set w .done }
      | some item =>
        { s with
            pool := s.pool.dropLast
            workers := s.workers.set w (.check item)
            claimed := item :: s.claimed }
    | .check it =>
      if it.dest ∈ s.fs then
        { s with
            workers := s.workers.set w .idle
            completed := s.completed + 1
            doneOk := it :: s.doneOk }
      else
        { s with
            workers := s.workers.set w (.fetching it)
            fetchLog := it :: s.fetchLog }
    | .fetching it =>
      match fetchRes it with
      | .ok => { s with workers := s.workers.set w (.writing it) }
      | e =>
        { s with
            workers := s.workers.set w .idle
            failed := s.failed + 1
            doneFail := it :: s.doneFail
            warnLog := (basename it.dest, fetchErrMsg e) :: s.warnLog }
    | .writing it =>
      { s with
          workers := s.workers.set w .idle
          fs := it.dest :: s.fs
          completed := s.completed + 1
          doneOk := it :: s.doneOk
          written := it :: s.written }

/-- Run a schedule (a list of worker indices) from a state. -/
def runSched (fetchRes : DItem → FetchOutcome) (sched : List Nat) (s : DState) : DState :=
  sched.foldl (stepWorker fetchRes) s

/-- The initial state for a given worker count. -/
def initState (numWorkers : Nat) (items : List DItem) (fs : List String) : DState :=
  { pool := items
    workers := List.replicate numWorkers .idle
    fs := fs
    completed := 0
    failed := 0
    fetchLog := []
    warnLog := []
    claimed := []
    doneOk := []
    doneFail := []
    written := [] }

/-- `downloadMedia(items)` spawns `Math.min(CONFIG.DOWNLOAD_CONCURRENCY,
items.length)` workers over a copy of the item list (zero workers for an
empty list, which the source returns from early). -/
def downloadMediaInit (items : List DItem) (fs : List String) : DState :=
  initState (min CONFIG.DOWNLOAD_CONCURRENCY items.length) items fs

/-- Every worker has finished. -/
def allDone (s : DState) : Prop := ∀ ph ∈ s.workers, ph = .done

instance (s : DState) : Decidable (allDone s) := by
  unfold allDone
  infer_instance

/-- Items currently claimed by some worker. -/
def inflightItems (s : DState) : List DItem := s.workers.filterMap phaseItem

/-! ## Claim theorems -/

/-- A concrete instantiation of the abstract host primitives, used to
exercise the theorems below on closed inputs. -/
def P0 : JSPrims :=
  { jsNumber := fun v => v
    b64decode := fun _ => []
    md5 := fun _ => List.replicate 16 0
    aesCbcDecrypt := fun _ _ _ => none
    utf8Encode := fun _ => []
    utf8Decode := fun _ => "" }

/-- C10: decodeValue applied to `null`, `undefined`, or any non-object
(boolean, number, string) returns the input itself unchanged — it neither
raises nor produces a different value. -/
theorem decodeValue_passthrough_nonobject (P : JSPrims) (uid : String) :
    decodeValue P .null uid = .ok .null ∧
    decodeValue P .undef uid = .ok .undef ∧
    (∀ b, decodeValue P (.bool b) uid = .ok (.bool b)) ∧
    (∀ n, decodeValue P (.num n) uid = .ok (.num n)) ∧
    (∀ s, decodeValue P (.str s) uid = .ok (.str s)) :=
  ⟨decodeValue_null P uid, decodeValue_undef P uid,
   fun b => decodeValue_bool P b uid,
   fun n => decodeValue_num P n uid,
   fun s => decodeValue_str P s uid⟩

/-- C2: for any string wire value whose text carries the "!enc:" marker, if
decryption of the remainder fails (for any reason — the decryption routine
returns none), decodeValue returns the original still-prefixed text, not an
error and not null, and decoding a record containing such a field
succeeds with the field left as its original text. -/
theorem decodeValue_decrypt_fallback (P : JSPrims) (s uid : String)
    (hpre : strStartsWith s "!enc:" = true)
    (hfail : decryptEncString P (s.drop 5) uid = none) :
    decodeValue P (.obj [("stringValue", .str s)]) uid = .ok (.str s) ∧
    (∀ k, decodeFields P (.obj [(k, .obj [("stringValue", .str s)])]) uid =
      .ok (.obj [(k, .str s)])) := by
  have h1 : decodeValue P (.obj [("stringValue", .str s)]) uid = .ok (.str s) := by
    rw [decodeValue_stringValue]
    rw [decodeStringValue]
    rw [if_pos hpre, hfail]
  refine ⟨h1, fun k => ?_⟩
  rw [decodeFields]
  simp only [truthy, entriesOf, if_pos]
  rw [List.mapM_cons, h1]
  rfl

/-- Witness for the decrypt-failure fallback at a closed input. -/
theorem decodeValue_decrypt_fallback_witness :
    strStartsWith "!enc:abc" "!enc:" = true ∧
    decryptEncString P0 ("!enc:abc".drop 5) "u" = none ∧
    decodeValue P0 (.obj [("stringValue", .str "!enc:abc")]) "u" = .ok (.str "!enc:abc") :=
  ⟨rfl, rfl, (decodeValue_decrypt_fallback P0 "!enc:abc" "u" rfl rfl).1⟩

/-- C3: the decoder is total on every representable wire value shape — it
returns a value and never raises — and each recognized kind receives exactly
its one treatment, with unrecognized kinds returned unchanged as inert
passthrough values. -/
theorem decodeValue_total (P : JSPrims) (uid : String) :
    (∀ v, IsWire v → ∃ r, decodeValue P v uid = .ok r) ∧
    (∀ key value rest, key ∉ recognizedKeys →
      decodeValue P (.obj ((key, value) :: rest)) uid = .ok (.obj ((key, value) :: rest))) ∧
    (∀ x rest, decodeValue P (.obj (("nullValue", x) :: rest)) uid = .ok .null) ∧
    (∀ x rest, decodeValue P (.obj (("booleanValue", x) :: rest)) uid =
      .ok (.bool (truthy x))) ∧
    (∀ x rest, decodeValue P (.obj (("timestampValue", x) :: rest)) uid = .ok x) ∧
    (∀ x rest, decodeValue P (.obj (("integerValue", x) :: rest)) uid =
      .ok (P.jsNumber x)) ∧
    (∀ x rest, decodeValue P (.obj (("doubleValue", x) :: rest)) uid =
      .ok (P.jsNumber x)) := by
  refine ⟨?_, ?_, ?_, ?_, ?_, ?_, ?_⟩
  · intro v h
    induction h with
    | strW s => exact ⟨_, decodeValue_stringValue P (.str s) [] uid⟩
    | intW s => exact ⟨_, decodeValue_integerValue P (.str s) [] uid⟩
    | dblW n => exact ⟨_, decodeValue_doubleValue P (.num n) [] uid⟩
    | boolW b => exact ⟨_, decodeValue_booleanValue P (.bool b) [] uid⟩
    | tsW s => exact ⟨_, decodeValue_timestampValue P (.str s) [] uid⟩
    | nullW => exact ⟨_, decodeValue_nullValue P .null [] uid⟩
    | mapW fl hfl ih =>
      rw [decodeValue_mapValue]
      have hme : mapEntries (.obj [("fields", .obj fl)]) = fl := rfl
      rw [hme]
      obtain ⟨bs, hbs⟩ := mapM_ok_of_forall
        (l := fl) (f := fun e => (decodeValue P e.2 uid).map (fun dw => (e.1, dw)))
        (by
          intro p hp
          obtain ⟨r, hr⟩ := ih p hp
          refine ⟨(p.1, r), ?_⟩
          show Except.map (fun dw => (p.1, dw)) (decodeValue P p.2 uid) = .ok (p.1, r)
          rw [hr]
          rfl)
      rw [show isNullish (JS.obj [("fields", JS.obj fl)]) = false from rfl]
      rw [if_neg (by simp)]
      rw [hbs]
      exact ⟨.obj bs, rfl⟩
    | mapEmptyW =>
      rw [decodeValue_mapValue]
      exact ⟨.obj [], rfl⟩
    | arrW xs hxs ih =>
      rw [decodeValue_arrayValue]
      have hme : arrElemsList (.obj [("values", .arr xs)]) = xs := rfl
      rw [hme]
      obtain ⟨bs, hbs⟩ := mapM_ok_of_forall
        (l := xs) (f := fun e => decodeValue P e uid) ih
      rw [show isNullish (JS.obj [("values", JS.arr xs)]) = false from rfl]
      rw [if_neg (by simp)]
      rw [show arrIsArr (JS.obj [("values", JS.arr xs)]) = true from rfl]
      rw [if_pos rfl, hbs]
      exact ⟨.arr bs, rfl⟩
    | arrEmptyW =>
      rw [decodeValue_arrayValue]
      exact ⟨.arr [], rfl⟩
    | opaqueW key value hk =>
      exact ⟨_, decodeValue_default P key value [] uid hk⟩
  · intro key value rest hk
    exact decodeValue_default P key value rest uid hk
  · intro x rest
    exact decodeValue_nullValue P x rest uid
  · intro x rest
    exact decodeValue_booleanValue P x rest uid
  · intro x rest
    exact decodeValue_timestampValue P x rest uid
  · intro x rest
    exact decodeValue_integerValue P x rest uid
  · intro x rest
    exact decodeValue_doubleValue P x rest uid

/-- Witness for totality: the specification's example record shape, plus an
opaque kind, decoded at closed inputs. -/
theorem decodeValue_total_witness :
    (∃ r, decodeValue P0
      (.obj [("mapValue", .obj [("fields",
        .obj [("name", .obj [("stringValue", .str "Ada")])])])]) "u" = .ok r) ∧
    decodeValue P0 (.obj [("bytesValue", .str "zz")]) "u" =
      .ok (.obj [("bytesValue", .str "zz")]) :=
  ⟨(decodeValue_total P0 "u").1 _
      (IsWire.mapW [("name", .obj [("stringValue", .str "Ada")])]
        (fun p hp => by
          rw [List.mem_singleton.mp hp]
          exact IsWire.strW "Ada")),
   (decodeValue_total P0 "u").2.1 "bytesValue" (.str "zz") [] (by decide)⟩

/-! ### C5: the decryption algorithm matches its specification -/

theorem specKdfStream_length (md5 : List Nat → List Nat) (pw salt : List Nat)
    (h16 : ∀ b, (md5 b).length = 16) (n : Nat) :
    (specKdfStream md5 pw salt n).length = 16 * n := by
  induction n with
  | zero => rfl
  | succ i ih =>
    rw [specKdfStream]
    rw [List.length_append, ih, specKdfDigest, h16]
    ring

/-- C5: decryption of a marked string follows the reference algorithm.
First conjunct: decoded input shorter than 16 bytes or not starting with the
8-byte "Salted__" marker fails immediately with none.  Second conjunct: the
source's key derivation equals the specification's iterated-MD5 derivation
(digests concatenated until at least 48 bytes, which for 16-byte MD5 digests
is exactly three) split into a 32-byte key and a 16-byte IV.  Third conjunct:
on marked input, bytes 8 to 16 are the salt, the rest is the body, and the
result is exactly the AES-256-CBC decryption (with its padding failure, when
the cipher reports one, becoming none). -/
theorem decryptEncString_matches_spec (P : JSPrims)
    (h16 : ∀ b, (P.md5 b).length = 16) :
    (∀ s pw, ((P.b64decode s).length < 16 ∨ (P.b64decode s).take 8 ≠ saltedMagic) →
      decryptEncString P s pw = none) ∧
    (∀ pw salt,
      evpBytesToKey P.md5 pw salt =
        ((specKdfStream P.md5 pw salt 3).take 32,
         ((specKdfStream P.md5 pw salt 3).drop 32).take 16) ∧
      (evpBytesToKey P.md5 pw salt).1.length = 32 ∧
      (evpBytesToKey P.md5 pw salt).2.length = 16) ∧
    (∀ s pw, ¬ ((P.b64decode s).length < 16 ∨ (P.b64decode s).take 8 ≠ saltedMagic) →
      decryptEncString P s pw =
        Option.map P.utf8Decode
          (P.aesCbcDecrypt
            (evpBytesToKey P.md5 (P.utf8Encode pw) (((P.b64decode s).drop 8).take 8)).1
            (evpBytesToKey P.md5 (P.utf8Encode pw) (((P.b64decode s).drop 8).take 8)).2
            ((P.b64decode s).drop 16))) := by
  have hkey : ∀ pw salt,
      evpBytesToKey P.md5 pw salt =
        ((specKdfStream P.md5 pw salt 3).take 32,
         ((specKdfStream P.md5 pw salt 3).drop 32).take 16) := by
    intro pw salt
    rw [evpBytesToKey, evpDeriveLoop_eq_spec P.md5 pw salt h16]
  have hlen : ∀ pw salt,
      (evpBytesToKey P.md5 pw salt).1.length = 32 ∧
      (evpBytesToKey P.md5 pw salt).2.length = 16 := by
    intro pw salt
    rw [hkey pw salt]
    have hs : (specKdfStream P.md5 pw salt 3).length = 48 :=
      specKdfStream_length P.md5 pw salt h16 3
    constructor
    · simp [List.length_take, hs]
    · simp [List.length_take, List.length_drop, hs]
  refine ⟨?_, fun pw salt => ⟨hkey pw salt, hlen pw salt⟩, ?_⟩
  · intro s pw h
    rw [decryptEncString]
    rw [if_pos h]
  · intro s pw h
    rw [decryptEncString]
    rw [if_neg h]
    have hl := hlen (P.utf8Encode pw) (((P.b64decode s).drop 8).take 8)
    rw [if_neg (by
      push_neg
      exact ⟨hl.1, hl.2⟩)]
    cases P.aesCbcDecrypt
        (evpBytesToKey P.md5 (P.utf8Encode pw) (((P.b64decode s).drop 8).take 8)).1
        (evpBytesToKey P.md5 (P.utf8Encode pw) (((P.b64decode s).drop 8).take 8)).2
        ((P.b64decode s).drop 16) with
    | none => rfl
    | some plain => rfl

/-- Witness for the decryption refinement at closed inputs. -/
theorem decryptEncString_matches_spec_witness :
    decryptEncString P0 "zz" "pw" = none ∧
    (evpBytesToKey P0.md5 [] []).1.length = 32 ∧
    (evpBytesToKey P0.md5 [] []).2.length = 16 :=
  ⟨(decryptEncString_matches_spec P0 (fun _ => rfl)).1 "zz" "pw" (Or.inl (by decide)),
   ((decryptEncString_matches_spec P0 (fun _ => rfl)).2.1 [] []).2⟩

/-! ### C8: the client-side sort is a stable ascending sort -/

theorem insertByTime_perm (parse : String → Int) (d : FDoc) (l : List FDoc) :
    (insertByTime parse d l).Perm (d :: l) := by
  induction l with
  | nil => exact List.Perm.refl _
  | cons e es ih =>
    rw [insertByTime]
    split
    · exact List.Perm.refl _
    · exact ((ih.cons e).trans (List.Perm.swap d e es))

theorem sortByCreateTimeAsc_perm (parse : String → Int) (l : List FDoc) :
    (sortByCreateTimeAsc parse l).Perm l := by
  induction l with
  | nil => exact List.Perm.refl _
  | cons d ds ih =>
    rw [sortByCreateTimeAsc]
    exact (insertByTime_perm parse d _).trans (ih.cons d)

theorem mem_insertByTime {parse : String → Int} {d x : FDoc} {l : List FDoc}
    (h : x ∈ insertByTime parse d l) : x = d ∨ x ∈ l :=
  List.mem_cons.mp ((insertByTime_perm parse d l).subset h)

theorem insertByTime_sorted (parse : String → Int) (d : FDoc) (l : List FDoc)
    (hl : List.Pairwise
      (fun a b => dateMs parse a.createTime ≤ dateMs parse b.createTime) l) :
    List.Pairwise (fun a b => dateMs parse a.createTime ≤ dateMs parse b.createTime)
      (insertByTime parse d l) := by
  induction l with
  | nil => exact List.pairwise_singleton _ d
  | cons e es ih =>
    rw [insertByTime]
    rcases List.pairwise_cons.mp hl with ⟨he, hes⟩
    split
    · rename_i hd
      refine List.pairwise_cons.mpr ⟨?_, hl⟩
      intro x hx
      rcases List.mem_cons.mp hx with hx | hx
      · rw [hx]; exact hd
      · exact le_trans hd (he x hx)
    · rename_i hd
      refine List.pairwise_cons.mpr ⟨?_, ih hes⟩
      intro x hx
      rcases mem_insertByTime hx with hx | hx
      · rw [hx]; exact le_of_not_le hd
      · exact he x hx

theorem sortByCreateTimeAsc_sorted (parse : String → Int) (l : List FDoc) :
    List.Pairwise (fun a b => dateMs parse a.createTime ≤ dateMs parse b.createTime)
      (sortByCreateTimeAsc parse l) := by
  induction l with
  | nil => exact List.Pairwise.nil
  | cons d ds ih =>
    rw [sortByCreateTimeAsc]
    exact insertByTime_sorted parse d _ ih

theorem insertByTime_filter_key (parse : String → Int) (t : Int) (d : FDoc)
    (l : List FDoc) :
    (insertByTime parse d l).filter (fun x => decide (dateMs parse x.createTime = t)) =
      (d :: l).filter (fun x => decide (dateMs parse x.createTime = t)) := by
  induction l with
  | nil => rfl
  | cons e es ih =>
    rw [insertByTime]
    split
    · rfl
    · rename_i hd
      by_cases he : dateMs parse e.createTime = t
      · by_cases hdt : dateMs parse d.createTime = t
        · exact absurd (le_of_eq (hdt.trans he.symm)) hd
        · simp only [List.filter_cons, ih]
          simp [he, hdt]
      · simp only [List.filter_cons, ih]
        simp [he]

theorem sortByCreateTimeAsc_stable (parse : String → Int) (t : Int) (l : List FDoc) :
    (sortByCreateTimeAsc parse l).filter
        (fun x => decide (dateMs parse x.createTime = t)) =
      l.filter (fun x => decide (dateMs parse x.createTime = t)) := by
  induction l with
  | nil => rfl
  | cons d ds ih =>
    rw [sortByCreateTimeAsc, insertByTime_filter_key]
    simp only [List.filter_cons]
    rw [ih]

/-- C8: the pinned-messages pipeline lists the collection without a
server-side order and applies the client-side stable sort as a final
corrective step: the result is the sorted list, a permutation of the listed
documents, non-decreasing in creation time, and documents with equal creation
time keep their listed order (the sublist at each time key is unchanged). -/
theorem fetchPinnedSorted_stable_sort (server : ListServer) (kinPath : String)
    (headers : Headers) (parse : String → Int) (fuel : Nat) (l : List FDoc)
    (hlist : listAll server (kinPath ++ "/PinnedMessages") headers none fuel = .ok l) :
    fetchPinnedSorted server kinPath headers parse fuel =
      .ok (sortByCreateTimeAsc parse l) ∧
    (sortByCreateTimeAsc parse l).Perm l ∧
    List.Pairwise (fun a b => dateMs parse a.createTime ≤ dateMs parse b.createTime)
      (sortByCreateTimeAsc parse l) ∧
    (∀ t, (sortByCreateTimeAsc parse l).filter
        (fun d => decide (dateMs parse d.createTime = t)) =
      l.filter (fun d => decide (dateMs parse d.createTime = t))) := by
  refine ⟨?_, sortByCreateTimeAsc_perm parse l, sortByCreateTimeAsc_sorted parse l,
    fun t => sortByCreateTimeAsc_stable parse t l⟩
  rw [fetchPinnedSorted, hlist]

/-- Closed data for exercising the retrieval theorems. -/
def docX : FDoc := { name := "c/p/x", createTime := some "bb", fields := [("created", .intV 2)] }

def docY : FDoc := { name := "c/p/y", createTime := some "a", fields := [("created", .intV 1)] }

def parseLen : String → Int := fun s => (s.length : Int)

def listServer0 : ListServer :=
  fun _ _ _ => .ok { documents := some [docX, docY], nextPageToken := none }

/-- Witness for the stable-sort pipeline at a closed input. -/
theorem fetchPinnedSorted_stable_sort_witness :
    fetchPinnedSorted listServer0 "k" [] parseLen 1 =
      .ok (sortByCreateTimeAsc parseLen [docX, docY]) ∧
    (sortByCreateTimeAsc parseLen [docX, docY]).Perm [docX, docY] :=
  ⟨(fetchPinnedSorted_stable_sort listServer0 "k" [] parseLen 1 [docX, docY] rfl).1,
   (fetchPinnedSorted_stable_sort listServer0 "k" [] parseLen 1 [docX, docY] rfl).2.1⟩

/-! ### C4: the journal fetcher falls back exactly on index/permission errors -/

/-- C4: fetchJournalAll first attempts the query strategy ordered by
'created'.  A successful query is returned as-is.  If and only if the query
fails with an error whose text contains PERMISSION_DENIED or 403 does it
retry with the listing strategy over the same path with the equivalent order
clause — and its outcome, success or failure, is the final one (the recovery
happens exactly once, so a failing fallback propagates).  Any other error
propagates unchanged. -/
theorem fetchJournalAll_fallback_exactly_on_permission (qs : QueryServer)
    (ls : ListServer) (parentDocPath collectionId : String) (headers : Headers)
    (fuel : Nat) :
    (∀ ds, runQueryAll qs parentDocPath collectionId headers "created" fuel = .ok ds →
      fetchJournalAll qs ls parentDocPath collectionId headers fuel = .ok ds) ∧
    (∀ e, runQueryAll qs parentDocPath collectionId headers "created" fuel = .error e →
      (strIncludes e "PERMISSION_DENIED" || strIncludes e "403") = true →
      fetchJournalAll qs ls parentDocPath collectionId headers fuel =
        listAll ls (parentDocPath ++ "/" ++ collectionId) headers
          (some "created asc,__name__ asc") fuel) ∧
    (∀ e, runQueryAll qs parentDocPath collectionId headers "created" fuel = .error e →
      (strIncludes e "PERMISSION_DENIED" || strIncludes e "403") = false →
      fetchJournalAll qs ls parentDocPath collectionId headers fuel = .error e) := by
  refine ⟨?_, ?_, ?_⟩
  · intro ds h
    rw [fetchJournalAll, h]
  · intro e h hb
    rw [fetchJournalAll, h]
    exact if_pos hb
  · intro e h hb
    rw [fetchJournalAll, h]
    exact if_neg (by rw [hb]; exact Bool.false_ne_true)

def qServerPermErr : QueryServer := fun _ _ _ => .error "HTTP POST failed: 403 need index"

def qServerOtherErr : QueryServer := fun _ _ _ => .error "HTTP POST failed: 500 boom"

def qServerEmpty : QueryServer := fun _ _ _ => .ok []

/-- Witness for the journal fallback at closed inputs: success passes
through, a 403 error falls back to the listing result, and another error
propagates. -/
theorem fetchJournalAll_fallback_witness :
    fetchJournalAll qServerEmpty listServer0 "p" "J" [] 1 = .ok [] ∧
    fetchJournalAll qServerPermErr listServer0 "p" "J" [] 1 =
      listAll listServer0 ("p" ++ "/" ++ "J") [] (some "created asc,__name__ asc") 1 ∧
    fetchJournalAll qServerOtherErr listServer0 "p" "J" [] 1 =
      .error "HTTP POST failed: 500 boom" :=
  ⟨(fetchJournalAll_fallback_exactly_on_permission qServerEmpty listServer0 "p" "J" [] 1).1
      [] rfl,
   (fetchJournalAll_fallback_exactly_on_permission qServerPermErr listServer0 "p" "J" [] 1).2.1
      "HTTP POST failed: 403 need index" rfl (by decide),
   (fetchJournalAll_fallback_exactly_on_permission qServerOtherErr listServer0 "p" "J" [] 1).2.2
      "HTTP POST failed: 500 boom" rfl (by decide)⟩

/-! ### C1: pagination completeness for both strategies -/

theorem cursorKeyOfVals_valueForCursor (field : String) (hfield : field ≠ "__name__")
    (d : FDoc) :
    cursorKeyOfVals [valueForCursor d field, valueForCursor d "__name__"] =
      docKey field d := by
  rw [valueForCursor, valueForCursor, if_neg hfield, if_pos rfl]
  rw [cursorKeyOfVals, docKey]
  cases h : d.fields.lookup field with
  | none => rfl
  | some v => cases v <;> rfl

theorem serverKeep_some (field : String) (hfield : field ≠ "__name__") (d d' : FDoc) :
    serverKeep field
      (some ([valueForCursor d field, valueForCursor d "__name__"], false)) d' =
      decide (docKey field d < docKey field d') := by
  rw [serverKeep]
  simp only [if_neg Bool.false_ne_true]
  rw [cursorKeyOfVals_valueForCursor field hfield d]

/-- In a strictly sorted list, the documents strictly after the i-th element
are exactly the suffix from position i + 1. -/
theorem sorted_filter_lt_eq_drop (field : String) :
    ∀ (l : List FDoc),
      l.Pairwise (fun a b => docKey field a < docKey field b) →
      ∀ i (h : i < l.length),
        l.filter (fun d => decide (docKey field l[i] < docKey field d)) =
          l.drop (i + 1) := by
  intro l
  induction l with
  | nil =>
    intro _ i h
    simp at h
  | cons a t ih =>
    intro hp i h
    rcases List.pairwise_cons.mp hp with ⟨ha, ht⟩
    cases i with
    | zero =>
      simp only [List.getElem_cons_zero, List.drop_succ_cons, List.drop_zero]
      rw [List.filter_cons]
      have h0 : decide (docKey field a < docKey field a) = false := by simp
      rw [h0]
      simp only [Bool.false_eq_true, if_false]
      exact List.filter_eq_self.mpr (fun x hx => by simpa using ha x hx)
    | succ i =>
      have hi : i < t.length := by simpa using h
      simp only [List.getElem_cons_succ, List.drop_succ_cons]
      rw [List.filter_cons]
      have h0 : decide (docKey field t[i] < docKey field a) = false := by
        have := ha t[i] (List.getElem_mem hi)
        simp only [decide_eq_false_iff_not]
        exact lt_asymm this
      rw [h0]
      simp only [Bool.false_eq_true, if_false]
      exact ih ht i hi

theorem filterMap_id_map_some {α : Type} (l : List α) : (l.map some).filterMap id = l := by
  simp

theorem fakeQueryServer_app (docs : List FDoc) (p : String) (hd : Headers)
    (q : StructuredQuery) :
    fakeQueryServer docs p hd q =
      .ok (((docs.filter
        (serverKeep (((q.orderBy.head?).getD ("", true)).1) q.startAt)).take q.limit).map
        some) := rfl

theorem runQueryAllGo_step (server : QueryServer) (p cid : String) (hd : Headers)
    (field : String) (fuel : Nat) (c : Option FDoc) (acc : List FDoc) :
    runQueryAllGo server p cid hd field (fuel + 1) c acc =
      match server p hd
        { collectionId := cid
          orderBy := [(field, true), ("__name__", true)]
          limit := CONFIG.QUERY_PAGE_SIZE
          startAt := c.map
            (fun d => ([valueForCursor d field, valueForCursor d "__name__"], false)) } with
      | .error e => .error e
      | .ok rows =>
        match rows.filterMap id with
        | [] => .ok acc
        | d :: ds =>
          if (d :: ds).length < CONFIG.QUERY_PAGE_SIZE then .ok (acc ++ (d :: ds))
          else runQueryAllGo server p cid hd field fuel
            (some ((d :: ds).getLast (by simp))) (acc ++ (d :: ds)) := by
  rw [runQueryAllGo]

/-- Completeness of the query-strategy loop against the fake backend: from a
cursor whose server-side filter is the suffix of the collection at position
n, the loop returns the accumulator followed by exactly that suffix. -/
theorem runQueryAllGo_fake_complete (docs : List FDoc) (field : String)
    (hfield : field ≠ "__name__")
    (hs : docs.Pairwise (fun a b => docKey field a < docKey field b))
    (p cid : String) (hd : Headers) :
    ∀ fuel (c : Option FDoc) (acc : List FDoc) (n : Nat), n ≤ docs.length →
      docs.filter (serverKeep field (c.map (fun d =>
        ([valueForCursor d field, valueForCursor d "__name__"], false)))) =
        docs.drop n →
      docs.length - n + 1 ≤ fuel →
      runQueryAllGo (fakeQueryServer docs) p cid hd field fuel c acc =
        .ok (acc ++ docs.drop n) := by
  intro fuel
  induction fuel with
  | zero =>
    intro c acc n hn hc hfuel
    omega
  | succ fuel ih =>
    intro c acc n hn hc hfuel
    rw [runQueryAllGo_step, fakeQueryServer_app]
    dsimp only [List.head?_cons, Option.getD_some]
    rw [hc, filterMap_id_map_some]
    cases htake : (docs.drop n).take CONFIG.QUERY_PAGE_SIZE with
    | nil =>
      have hdrop : docs.drop n = [] := by
        rcases List.take_eq_nil_iff.mp htake with h | h
        · exact absurd h (by rw [show CONFIG.QUERY_PAGE_SIZE = 100 from rfl]; omega)
        · exact h
      rw [hdrop]
      simp
    | cons d ds =>
      dsimp only
      have hlen_take : (d :: ds).length = min CONFIG.QUERY_PAGE_SIZE (docs.length - n) := by
        rw [← htake, List.length_take, List.length_drop]
      by_cases hlen : (d :: ds).length < CONFIG.QUERY_PAGE_SIZE
      · rw [if_pos hlen]
        have hsmall : docs.length - n < CONFIG.QUERY_PAGE_SIZE := by
          rw [hlen_take] at hlen
          omega
        have : docs.drop n = d :: ds := by
          rw [← htake]
          exact (List.take_of_length_le (by rw [List.length_drop]; omega)).symm
        rw [this]
      · rw [if_neg hlen]
        have hq100 : CONFIG.QUERY_PAGE_SIZE = 100 := rfl
        have hge : 100 ≤ docs.length - n := by
          rw [hlen_take, hq100] at hlen
          omega
        have hidx : n + 99 < docs.length := by omega
        have hlast : (d :: ds).getLast (by simp) = docs[n + 99] := by
          rw [List.getLast_eq_getElem]
          have hlen100 : (d :: ds).length = 100 := by
            rw [hlen_take, hq100]
            omega
          have h99 : (d :: ds).length - 1 = 99 := by omega
          have hcast : ∀ (hh : (d :: ds).length - 1 < (d :: ds).length),
              (d :: ds)[(d :: ds).length - 1] = docs[n + 99] := by
            intro hh
            have hh2 : (d :: ds).length - 1 <
                ((docs.drop n).take CONFIG.QUERY_PAGE_SIZE).length := by
              rw [htake]; exact hh
            have : (d :: ds)[(d :: ds).length - 1] =
                ((docs.drop n).take CONFIG.QUERY_PAGE_SIZE)[(d :: ds).length - 1] := by
              congr 1
              · rw [htake]
            rw [this]
            rw [List.getElem_take]
            rw [List.getElem_drop]
            congr 1
            omega
          exact hcast _
        have hc' : docs.filter (serverKeep field ((some ((d :: ds).getLast (by simp))).map
            (fun d => ([valueForCursor d field, valueForCursor d "__name__"], false)))) =
            docs.drop (n + 100) := by
          rw [Option.map_some']
          rw [List.filter_congr (fun d' _ =>
            serverKeep_some field hfield ((d :: ds).getLast (by simp)) d')]
          rw [hlast]
          have := sorted_filter_lt_eq_drop field docs hs (n + 99) hidx
          rw [this]
        rw [ih (some ((d :: ds).getLast (by simp))) (acc ++ (d :: ds)) (n + 100)
          (by omega) hc' (by omega)]
        rw [List.append_assoc]
        have : (d :: ds) ++ docs.drop (n + 100) = docs.drop n := by
          rw [← htake, hq100]
          rw [show docs.drop (n + 100) = (docs.drop n).drop 100 from by
            rw [List.drop_drop]]
          exact List.take_append_drop 100 (docs.drop n)
        rw [this]

theorem unaryToken_length (n : Nat) : (unaryToken n).length = n := by
  rw [unaryToken]
  simp [String.length]

theorem unaryToken_ne_empty {n : Nat} (h : n ≠ 0) : ¬ unaryToken n = "" := by
  intro he
  apply h
  have hl := congrArg String.length he
  rw [unaryToken_length] at hl
  simpa using hl

theorem listAllGo_step (server : ListServer) (path : String) (hd : Headers)
    (ob : Option String) (fuel : Nat) (tok : String) (acc : List FDoc) :
    listAllGo server path hd ob (fuel + 1) tok acc =
      match server path hd
        { pageSize := CONFIG.MAX_LIST_PAGE_SIZE
          orderBy := match ob with
            | some s => if s = "" then none else some s
            | none => none
          pageToken := if tok = "" then none else some tok } with
      | .error e => .error e
      | .ok resp =>
        if resp.nextPageToken.getD "" = "" then .ok (acc ++ resp.documents.getD [])
        else listAllGo server path hd ob fuel (resp.nextPageToken.getD "")
          (acc ++ resp.documents.getD []) := by
  rw [listAllGo.eq_def]

/-- Completeness of the listing-strategy loop against the fake backend: from
the token encoding position i, the loop returns the accumulator followed by
the suffix of the collection at i. -/
theorem listAllGo_fake_complete (docs : List FDoc) (path : String) (hd : Headers)
    (ob : Option String) :
    ∀ fuel i (acc : List FDoc), i ≤ docs.length → docs.length - i + 1 ≤ fuel →
      listAllGo (fakeListServer docs) path hd ob fuel (unaryToken i) acc =
        .ok (acc ++ docs.drop i) := by
  intro fuel
  induction fuel with
  | zero =>
    intro i acc hi hf
    omega
  | succ fuel ih =>
    intro i acc hi hf
    have h300 : CONFIG.MAX_LIST_PAGE_SIZE = 300 := rfl
    have hlen : ((if unaryToken i = "" then (none : Option String)
        else some (unaryToken i)).getD "").length = i := by
      by_cases h0 : unaryToken i = ""
      · rw [if_pos h0, Option.getD_none]
        have hl := congrArg String.length h0
        rw [unaryToken_length] at hl
        simpa using hl.symm
      · rw [if_neg h0, Option.getD_some, unaryToken_length]
    rw [listAllGo_step]
    dsimp only [fakeListServer]
    rw [hlen]
    by_cases hj : i + CONFIG.MAX_LIST_PAGE_SIZE < docs.length
    · rw [if_pos hj]
      rw [show (some (unaryToken (i + CONFIG.MAX_LIST_PAGE_SIZE))).getD "" =
        unaryToken (i + CONFIG.MAX_LIST_PAGE_SIZE) from rfl]
      rw [if_neg (unaryToken_ne_empty (by omega))]
      rw [show (some ((docs.drop i).take CONFIG.MAX_LIST_PAGE_SIZE)).getD [] =
        (docs.drop i).take CONFIG.MAX_LIST_PAGE_SIZE from rfl]
      rw [ih (i + CONFIG.MAX_LIST_PAGE_SIZE) (acc ++ (docs.drop i).take CONFIG.MAX_LIST_PAGE_SIZE)
        (by omega) (by omega)]
      rw [List.append_assoc]
      have hsplit : (docs.drop i).take CONFIG.MAX_LIST_PAGE_SIZE ++
          docs.drop (i + CONFIG.MAX_LIST_PAGE_SIZE) = docs.drop i := by
        rw [show docs.drop (i + CONFIG.MAX_LIST_PAGE_SIZE) =
          (docs.drop i).drop CONFIG.MAX_LIST_PAGE_SIZE from by rw [List.drop_drop]]
        exact List.take_append_drop _ (docs.drop i)
      rw [hsplit]
    · rw [if_neg hj]
      rw [show ((none : Option String)).getD "" = "" from rfl]
      rw [if_pos rfl]
      rw [show (some ((docs.drop i).take CONFIG.MAX_LIST_PAGE_SIZE)).getD [] =
        (docs.drop i).take CONFIG.MAX_LIST_PAGE_SIZE from rfl]
      rw [List.take_of_length_le (by rw [List.length_drop]; omega)]

/-- C1: against a paginating backend over M documents in strictly ascending
(orderField, document name) order, both retrieval strategies return exactly
the M documents, in order, with no duplicates and none dropped.  The query
strategy's exclusive start-after cursor is rebuilt from the last document of
each page, and it stops when a page is shorter than the requested page size;
the listing strategy follows continuation tokens until none is returned. -/
theorem pagination_complete (docs : List FDoc) (field : String)
    (hfield : field ≠ "__name__")
    (hs : docs.Pairwise (fun a b => docKey field a < docKey field b))
    (parentDocPath collectionId collectionPath : String) (headers : Headers)
    (ob : Option String) (fuel₁ fuel₂ : Nat)
    (hf₁ : docs.length + 1 ≤ fuel₁) (hf₂ : docs.length + 1 ≤ fuel₂) :
    runQueryAll (fakeQueryServer docs) parentDocPath collectionId headers field fuel₁ =
      .ok docs ∧
    listAll (fakeListServer docs) collectionPath headers ob fuel₂ = .ok docs ∧
    docs.Nodup := by
  refine ⟨?_, ?_, ?_⟩
  · rw [runQueryAll]
    have h0 : docs.filter (serverKeep field ((none : Option FDoc).map (fun d =>
        ([valueForCursor d field, valueForCursor d "__name__"], false)))) =
        docs.drop 0 := by
      rw [List.drop_zero]
      exact List.filter_eq_self.mpr (fun a _ => rfl)
    have := runQueryAllGo_fake_complete docs field hfield hs parentDocPath collectionId
      headers fuel₁ none [] 0 (by omega) h0 (by omega)
    simpa using this
  · rw [listAll]
    have h0 : ("" : String) = unaryToken 0 := rfl
    rw [h0]
    have := listAllGo_fake_complete docs collectionPath headers ob fuel₂ 0 []
      (by omega) (by omega)
    simpa using this
  · have hne : docs.Pairwise (fun a b : FDoc => a ≠ b) :=
      hs.imp (fun hab => by
        intro he
        rw [he] at hab
        exact lt_irrefl _ hab)
    exact hne

/-! ### The scheduler invariant (C6, C7, C9) -/

theorem set_ne_nil {α : Type} {l : List α} (h : l ≠ []) (w : Nat) (x : α) :
    l.set w x ≠ [] := by
  intro he
  apply h
  have hl := congrArg List.length he
  rw [List.length_set] at hl
  exact List.eq_nil_of_length_eq_zero hl

theorem filterMap_set_decomp {α β : Type} (g : α → Option β) (l : List α) (w : Nat)
    (h : w < l.length) (x : α) :
    (l.set w x).filterMap g =
      (l.take w).filterMap g ++ (g x).toList ++ (l.drop (w + 1)).filterMap g := by
  rw [List.set_eq_take_cons_drop x h, List.filterMap_append, List.filterMap_cons]
  cases hg : g x <;> simp [Option.toList]

theorem filterMap_getElem_decomp {α β : Type} (g : α → Option β) (l : List α) (w : Nat)
    (h : w < l.length) :
    l.filterMap g =
      (l.take w).filterMap g ++ (g l[w]).toList ++ (l.drop (w + 1)).filterMap g := by
  conv_lhs => rw [← List.take_append_drop w l]
  rw [List.filterMap_append, List.drop_eq_getElem_cons h, List.filterMap_cons]
  cases hg : g l[w] <;> simp [Option.toList]

/-! #### Step equations for stepWorker -/

theorem stepWorker_oob (f : DItem → FetchOutcome) (s : DState) (w : Nat)
    (h : s.workers[w]? = none) : stepWorker f s w = s := by
  rw [stepWorker, h]

theorem stepWorker_done (f : DItem → FetchOutcome) (s : DState) (w : Nat)
    (h : s.workers[w]? = some .done) : stepWorker f s w = s := by
  rw [stepWorker, h]

theorem stepWorker_idle_empty (f : DItem → FetchOutcome) (s : DState) (w : Nat)
    (h : s.workers[w]? = some .idle) (hp : s.pool.getLast? = none) :
    stepWorker f s w = { s with workers := s.workers.set w .done } := by
  rw [stepWorker, h]
  dsimp only
  rw [hp]

theorem stepWorker_idle_pop (f : DItem → FetchOutcome) (s : DState) (w : Nat)
    (item : DItem) (h : s.workers[w]? = some .idle) (hp : s.pool.getLast? = some item) :
    stepWorker f s w =
      { s with
          pool := s.pool.dropLast
          workers := s.workers.set w (.check item)
          claimed := item :: s.claimed } := by
  rw [stepWorker, h]
  dsimp only
  rw [hp]

theorem stepWorker_check_skip (f : DItem → FetchOutcome) (s : DState) (w : Nat)
    (it : DItem) (h : s.workers[w]? = some (.check it)) (hm : it.dest ∈ s.fs) :
    stepWorker f s w =
      { s with
          workers := s.workers.set w .idle
          completed := s.completed + 1
          doneOk := it :: s.doneOk } := by
  rw [stepWorker, h]
  dsimp only
  rw [if_pos hm]

theorem stepWorker_check_fetch (f : DItem → FetchOutcome) (s : DState) (w : Nat)
    (it : DItem) (h : s.workers[w]? = some (.check it)) (hm : it.dest ∉ s.fs) :
    stepWorker f s w =
      { s with
          workers := s.workers.set w (.fetching it)
          fetchLog := it :: s.fetchLog } := by
  rw [stepWorker, h]
  dsimp only
  rw [if_neg hm]

theorem stepWorker_fetch_ok (f : DItem → FetchOutcome) (s : DState) (w : Nat)
    (it : DItem) (h : s.workers[w]? = some (.fetching it)) (hr : f it = .ok) :
    stepWorker f s w = { s with workers := s.workers.set w (.writing it) } := by
  rw [stepWorker, h]
  dsimp only
  rw [hr]

theorem stepWorker_fetch_err (f : DItem → FetchOutcome) (s : DState) (w : Nat)
    (it : DItem) (h : s.workers[w]? = some (.fetching it)) (hr : f it ≠ .ok) :
    stepWorker f s w =
      { s with
          workers := s.workers.set w .idle
          failed := s.failed + 1
          doneFail := it :: s.doneFail
          warnLog := (basename it.dest, fetchErrMsg (f it)) :: s.warnLog } := by
  rw [stepWorker, h]
  dsimp only
  cases hres : f it with
  | ok => exact absurd hres hr
  | httpErr st => rfl
  | ioErr m => rfl

theorem stepWorker_writing (f : DItem → FetchOutcome) (s : DState) (w : Nat)
    (it : DItem) (h : s.workers[w]? = some (.writing it)) :
    stepWorker f s w =
      { s with
          workers := s.workers.set w .idle
          fs := it.dest :: s.fs
          completed := s.completed + 1
          doneOk := it :: s.doneOk
          written := it :: s.written } := by
  rw [stepWorker, h]

/-- The master invariant of the scheduler, over the initial items and the
initial filesystem.  Multiset equalities express the conservation claims. -/
structure DInv (f : DItem → FetchOutcome) (items : List DItem) (fs₀ : List String)
    (s : DState) : Prop where
  pool_claimed : (s.pool : Multiset DItem) + ↑s.claimed = ↑items
  claimed_parts :
    (s.claimed : Multiset DItem) = ↑(inflightItems s) + ↑s.doneOk + ↑s.doneFail
  completed_eq : s.completed = s.doneOk.length
  failed_eq : s.failed = s.doneFail.length
  fs_eq : s.fs = s.written.map (fun i => i.dest) ++ fs₀
  written_sub : (s.written : Multiset DItem) ≤ ↑s.doneOk
  doneOk_dest : ∀ i ∈ s.doneOk, i.dest ∈ s.fs
  doneFail_bad : ∀ i ∈ s.doneFail, f i ≠ .ok
  writing_ok : ∀ ph ∈ s.workers, ∀ it, ph = WPhase.writing it → f it = .ok
  warn_eq : s.warnLog = s.doneFail.map (fun i => (basename i.dest, fetchErrMsg (f i)))
  workers_ne : s.workers ≠ []
  done_pool : (∀ ph ∈ s.workers, ph = .done) → s.pool = []

theorem DInv_init (f : DItem → FetchOutcome) (items : List DItem) (fs₀ : List String)
    (W : Nat) (hW : 0 < W) : DInv f items fs₀ (initState W items fs₀) := by
  refine ⟨?_, ?_, rfl, rfl, rfl, ?_, ?_, ?_, ?_, rfl, ?_, ?_⟩
  · simp [initState]
  · have : inflightItems (initState W items fs₀) = [] := by
      rw [inflightItems]
      exact List.filterMap_eq_nil.mpr (fun ph hph => by
        rw [List.eq_of_mem_replicate hph]
        rfl)
    rw [this]
    rfl
  · simp [initState]
  · intro i hi
    simp [initState] at hi
  · intro i hi
    simp [initState] at hi
  · intro ph hph it he
    rw [List.eq_of_mem_replicate hph] at he
    cases he
  · rw [initState]
    intro he
    have hl := congrArg List.length he
    rw [List.length_replicate] at hl
    simp at hl
    omega
  · intro hall
    rcases W with _ | W
    · omega
    · have : WPhase.idle ∈ (initState (W + 1) items fs₀).workers := by
        rw [initState]
        exact List.mem_replicate.mpr ⟨by omega, rfl⟩
      have := hall _ this
      cases this

theorem mem_set_self {α : Type} (l : List α) (w : Nat) (h : w < l.length) (x : α) :
    x ∈ l.set w x := by
  rw [List.set_eq_take_cons_drop x h]
  exact List.mem_append_right _ (List.mem_cons_self _ _)

theorem getLast?_eq_none_iff_nil {α : Type} (l : List α) : l.getLast? = none ↔ l = [] := by
  cases l with
  | nil => simp
  | cons a t =>
    rw [List.getLast?_eq_getLast (a :: t) (by simp)]
    simp

theorem mcoe_append {α : Type} (l₁ l₂ : List α) :
    ((l₁ ++ l₂ : List α) : Multiset α) = ↑l₁ + ↑l₂ := rfl

theorem mcoe_cons {α : Type} (a : α) (l : List α) :
    ((a :: l : List α) : Multiset α) = {a} + ↑l := by
  rw [← Multiset.cons_coe, ← Multiset.singleton_add]

theorem mcoe_nil {α : Type} : (([] : List α) : Multiset α) = 0 := rfl

theorem inflight_step {s : DState} {w : Nat} {ph : WPhase}
    (hwlt : w < s.workers.length) (hwget : s.workers[w] = ph) (ph' : WPhase) :
    ((s.workers.set w ph').filterMap phaseItem : Multiset DItem) +
        ↑(phaseItem ph).toList =
      ↑(s.workers.filterMap phaseItem) + ↑(phaseItem ph').toList := by
  rw [filterMap_set_decomp phaseItem s.workers w hwlt ph']
  rw [filterMap_getElem_decomp phaseItem s.workers w hwlt]
  rw [hwget]
  simp only [mcoe_append]
  abel

theorem DInv_step (f : DItem → FetchOutcome) (items : List DItem) (fs₀ : List String)
    (s : DState) (inv : DInv f items fs₀ s) (w : Nat) :
    DInv f items fs₀ (stepWorker f s w) := by
  cases hw : s.workers[w]? with
  | none =>
    rw [stepWorker_oob f s w hw]
    exact inv
  | some ph =>
    have hwlt : w < s.workers.length := (List.getElem?_eq_some.mp hw).1
    have hwget : s.workers[w] = ph := (List.getElem?_eq_some.mp hw).2.symm ▸
      (List.getElem?_eq_some.mp hw).2
    cases ph with
    | done =>
      rw [stepWorker_done f s w hw]
      exact inv
    | idle =>
      cases hp : s.pool.getLast? with
      | none =>
        rw [stepWorker_idle_empty f s w hw hp]
        have hpool : s.pool = [] := (getLast?_eq_none_iff_nil s.pool).mp hp
        have ht := inflight_step hwlt hwget WPhase.done
        have ht2 : ((s.workers.set w .done).filterMap phaseItem : Multiset DItem) =
            ↑(s.workers.filterMap phaseItem) := by
          simpa [phaseItem, Option.toList, mcoe_nil] using ht
        refine ⟨inv.pool_claimed, ?_, inv.completed_eq, inv.failed_eq, inv.fs_eq,
          inv.written_sub, inv.doneOk_dest, inv.doneFail_bad, ?_, inv.warn_eq, ?_, ?_⟩
        · rw [inv.claimed_parts]
          dsimp only
          rw [inflightItems, inflightItems, ht2]
        · intro ph' hmem it he
          rcases List.mem_or_eq_of_mem_set hmem with hmem | hmem
          · exact inv.writing_ok ph' hmem it he
          · rw [hmem] at he
            cases he
        · exact set_ne_nil inv.workers_ne w .done
        · intro _
          exact hpool
      | some item =>
        rw [stepWorker_idle_pop f s w item hw hp]
        have hpoolne : s.pool ≠ [] := by
          intro he
          rw [he] at hp
          cases hp
        have hpool : s.pool.dropLast ++ [item] = s.pool := by
          have hg := List.getLast?_eq_getLast s.pool hpoolne
          rw [hp] at hg
          have : s.pool.getLast hpoolne = item := by
            injection hg.symm
          rw [← this]
          exact List.dropLast_append_getLast hpoolne
        have ht := inflight_step hwlt hwget (WPhase.check item)
        have ht2 : ((s.workers.set w (.check item)).filterMap phaseItem : Multiset DItem) =
            ↑(s.workers.filterMap phaseItem) + {item} := by
          simpa [phaseItem, Option.toList, mcoe_nil, mcoe_cons] using ht
        refine ⟨?_, ?_, inv.completed_eq, inv.failed_eq, inv.fs_eq,
          inv.written_sub, inv.doneOk_dest, inv.doneFail_bad, ?_, inv.warn_eq, ?_, ?_⟩
        · dsimp only
          have hpc := inv.pool_claimed
          rw [← hpool, mcoe_append] at hpc
          rw [mcoe_cons, ← hpc]
          simp only [mcoe_cons, mcoe_nil]
          abel
        · dsimp only
          rw [mcoe_cons, inv.claimed_parts, inflightItems, inflightItems, ht2]
          abel
        · intro ph' hmem it he
          rcases List.mem_or_eq_of_mem_set hmem with hmem | hmem
          · exact inv.writing_ok ph' hmem it he
          · rw [hmem] at he
            cases he
        · exact set_ne_nil inv.workers_ne w _
        · intro hall
          exact absurd (hall _ (mem_set_self s.workers w hwlt _)) (by simp)
    | check it =>
      by_cases hm : it.dest ∈ s.fs
      · rw [stepWorker_check_skip f s w it hw hm]
        have ht := inflight_step hwlt hwget WPhase.idle
        have ht2 : (↑(s.workers.filterMap phaseItem) : Multiset DItem) =
            ↑((s.workers.set w .idle).filterMap phaseItem) + {it} := by
          have := ht.symm
          simpa [phaseItem, Option.toList, mcoe_nil, mcoe_cons] using this
        refine ⟨inv.pool_claimed, ?_, ?_, inv.failed_eq, inv.fs_eq, ?_, ?_,
          inv.doneFail_bad, ?_, inv.warn_eq, ?_, ?_⟩
        · dsimp only
          rw [inv.claimed_parts, inflightItems, inflightItems, ht2, mcoe_cons]
          abel
        · dsimp only
          rw [inv.completed_eq]
          simp
        · dsimp only
          exact le_trans inv.written_sub (by
            rw [mcoe_cons]
            exact le_add_self)
        · dsimp only
          intro i hi
          rcases List.mem_cons.mp hi with hi | hi
          · rw [hi]
            exact hm
          · exact inv.doneOk_dest i hi
        · intro ph' hmem it' he
          rcases List.mem_or_eq_of_mem_set hmem with hmem | hmem
          · exact inv.writing_ok ph' hmem it' he
          · rw [hmem] at he
            cases he
        · exact set_ne_nil inv.workers_ne w _
        · intro hall
          exact absurd (hall _ (mem_set_self s.workers w hwlt _)) (by simp)
      · rw [stepWorker_check_fetch f s w it hw hm]
        have ht := inflight_step hwlt hwget (WPhase.fetching it)
        have ht2 : ((s.workers.set w (.fetching it)).filterMap phaseItem : Multiset DItem) =
            ↑(s.workers.filterMap phaseItem) := by
          have h1 : (phaseItem (WPhase.check it)).toList = [it] := rfl
          have h2 : (phaseItem (WPhase.fetching it)).toList = [it] := rfl
          rw [h1, h2] at ht
          exact add_right_cancel ht
        refine ⟨inv.pool_claimed, ?_, inv.completed_eq, inv.failed_eq, inv.fs_eq,
          inv.written_sub, inv.doneOk_dest, inv.doneFail_bad, ?_, inv.warn_eq, ?_, ?_⟩
        · dsimp only
          rw [inv.claimed_parts, inflightItems, inflightItems, ht2]
        · intro ph' hmem it' he
          rcases List.mem_or_eq_of_mem_set hmem with hmem | hmem
          · exact inv.writing_ok ph' hmem it' he
          · rw [hmem] at he
            cases he
        · exact set_ne_nil inv.workers_ne w _
        · intro hall
          exact absurd (hall _ (mem_set_self s.workers w hwlt _)) (by simp)
    | fetching it =>
      by_cases hr : f it = .ok
      · rw [stepWorker_fetch_ok f s w it hw hr]
        have ht := inflight_step hwlt hwget (WPhase.writing it)
        have ht2 : ((s.workers.set w (.writing it)).filterMap phaseItem : Multiset DItem) =
            ↑(s.workers.filterMap phaseItem) := by
          have h1 : (phaseItem (WPhase.fetching it)).toList = [it] := rfl
          have h2 : (phaseItem (WPhase.writing it)).toList = [it] := rfl
          rw [h1, h2] at ht
          exact add_right_cancel ht
        refine ⟨inv.pool_claimed, ?_, inv.completed_eq, inv.failed_eq, inv.fs_eq,
          inv.written_sub, inv.doneOk_dest, inv.doneFail_bad, ?_, inv.warn_eq, ?_, ?_⟩
        · dsimp only
          rw [inv.claimed_parts, inflightItems, inflightItems, ht2]
        · intro ph' hmem it' he
          rcases List.mem_or_eq_of_mem_set hmem with hmem | hmem
          · exact inv.writing_ok ph' hmem it' he
          · rw [hmem] at he
            injection he with h
            rw [← h]
            exact hr
        · exact set_ne_nil inv.workers_ne w _
        · intro hall
          exact absurd (hall _ (mem_set_self s.workers w hwlt _)) (by simp)
      · rw [stepWorker_fetch_err f s w it hw hr]
        have ht := inflight_step hwlt hwget WPhase.idle
        have ht2 : (↑(s.workers.filterMap phaseItem) : Multiset DItem) =
            ↑((s.workers.set w .idle).filterMap phaseItem) + {it} := by
          have := ht.symm
          simpa [phaseItem, Option.toList, mcoe_nil, mcoe_cons] using this
        refine ⟨inv.pool_claimed, ?_, inv.completed_eq, ?_, inv.fs_eq,
          inv.written_sub, inv.doneOk_dest, ?_, ?_, ?_, ?_, ?_⟩
        · dsimp only
          rw [inv.claimed_parts, inflightItems, inflightItems, ht2, mcoe_cons]
          abel
        · dsimp only
          rw [inv.failed_eq]
          simp
        · dsimp only
          intro i hi
          rcases List.mem_cons.mp hi with hi | hi
          · rw [hi]
            exact hr
          · exact inv.doneFail_bad i hi
        · intro ph' hmem it' he
          rcases List.mem_or_eq_of_mem_set hmem with hmem | hmem
          · exact inv.writing_ok ph' hmem it' he
          · rw [hmem] at he
            cases he
        · dsimp only
          rw [inv.warn_eq]
          rfl
        · exact set_ne_nil inv.workers_ne w _
        · intro hall
          exact absurd (hall _ (mem_set_self s.workers w hwlt _)) (by simp)
    | writing it =>
      rw [stepWorker_writing f s w it hw]
      have ht := inflight_step hwlt hwget WPhase.idle
      have ht2 : (↑(s.workers.filterMap phaseItem) : Multiset DItem) =
          ↑((s.workers.set w .idle).filterMap phaseItem) + {it} := by
        have := ht.symm
        simpa [phaseItem, Option.toList, mcoe_nil, mcoe_cons] using this
      refine ⟨inv.pool_claimed, ?_, ?_, inv.failed_eq, ?_, ?_, ?_,
        inv.doneFail_bad, ?_, inv.warn_eq, ?_, ?_⟩
      · dsimp only
        rw [inv.claimed_parts, inflightItems, inflightItems, ht2, mcoe_cons]
        abel
      · dsimp only
        rw [inv.completed_eq]
        simp
      · dsimp only
        rw [inv.fs_eq]
        rfl
      · dsimp only
        rw [mcoe_cons, mcoe_cons]
        exact add_le_add_left inv.written_sub _
      · dsimp only
        intro i hi
        rcases List.mem_cons.mp hi with hi | hi
        · rw [hi]
          exact List.mem_cons_self _ _
        · exact List.mem_cons_of_mem _ (inv.doneOk_dest i hi)
      · intro ph' hmem it' he
        rcases List.mem_or_eq_of_mem_set hmem with hmem | hmem
        · exact inv.writing_ok ph' hmem it' he
        · rw [hmem] at he
          cases he
      · exact set_ne_nil inv.workers_ne w _
      · intro hall
        exact absurd (hall _ (mem_set_self s.workers w hwlt _)) (by simp)

theorem DInv_runSched (f : DItem → FetchOutcome) (items : List DItem) (fs₀ : List String)
    (sched : List Nat) (s : DState) (inv : DInv f items fs₀ s) :
    DInv f items fs₀ (runSched f sched s) := by
  induction sched generalizing s with
  | nil => exact inv
  | cons w ws ih => exact ih _ (DInv_step f items fs₀ s inv w)

theorem DInv_terminal (f : DItem → FetchOutcome) (items : List DItem) (fs₀ : List String)
    (s : DState) (inv : DInv f items fs₀ s) (hdone : allDone s) :
    (s.claimed : Multiset DItem) = ↑items ∧
    ((s.doneOk : Multiset DItem) + ↑s.doneFail) = ↑items ∧
    s.completed + s.failed = items.length ∧
    s.pool = [] ∧ inflightItems s = [] := by
  have hinf : inflightItems s = [] := by
    rw [inflightItems]
    exact List.filterMap_eq_nil.mpr (fun ph hph => by rw [hdone ph hph]; rfl)
  have hpool : s.pool = [] := inv.done_pool hdone
  have hcl : (s.claimed : Multiset DItem) = ↑items := by
    have h := inv.pool_claimed
    rw [hpool] at h
    simpa [mcoe_nil] using h
  have hparts : ((s.doneOk : Multiset DItem) + ↑s.doneFail) = ↑items := by
    have h := inv.claimed_parts
    rw [hinf, hcl] at h
    simpa [mcoe_nil] using h.symm
  refine ⟨hcl, hparts, ?_, hpool, hinf⟩
  have hcard := congrArg Multiset.card hparts
  simp only [Multiset.card_add, Multiset.coe_card] at hcard
  rw [inv.completed_eq, inv.failed_eq]
  exact hcard

/-- C9: in any complete run of the scheduler — for any worker count from 1 up
to the configured concurrency and any interleaving — every submitted task is
claimed by exactly one worker and consumed exactly once: the multiset of
claimed tasks equals the multiset of submitted tasks, the processed count
(succeeded plus failed) equals the number submitted, and the shared list is
exhausted. -/
theorem downloadMedia_tasks_claimed_once (f : DItem → FetchOutcome)
    (items : List DItem) (fs₀ : List String) (W : Nat) (sched : List Nat) (s : DState)
    (hW1 : 1 ≤ W) (hW2 : W ≤ CONFIG.DOWNLOAD_CONCURRENCY)
    (hrun : runSched f sched (initState W items fs₀) = s)
    (hdone : allDone s) :
    s.claimed.Perm items ∧ s.completed + s.failed = items.length ∧ s.pool = [] := by
  have inv := DInv_runSched f items fs₀ sched (initState W items fs₀)
    (DInv_init f items fs₀ W (by omega))
  rw [hrun] at inv
  obtain ⟨hcl, _, hcf, hpool, _⟩ := DInv_terminal f items fs₀ s inv hdone
  exact ⟨Multiset.coe_eq_coe.mp hcl, hcf, hpool⟩

def itemA : DItem := { url := "u/a", dest := "d/a.jpg" }

def itemB : DItem := { url := "u/b", dest := "d/b.jpg" }

def fetchAllOk : DItem → FetchOutcome := fun _ => .ok

def sched0 : List Nat := List.replicate 12 0

/-- Witness: a single worker drains a two-task list completely. -/
theorem downloadMedia_tasks_claimed_once_witness :
    (runSched fetchAllOk sched0 (initState 1 [itemA, itemB] [])).claimed.Perm
      [itemA, itemB] ∧
    (runSched fetchAllOk sched0 (initState 1 [itemA, itemB] [])).completed +
      (runSched fetchAllOk sched0 (initState 1 [itemA, itemB] [])).failed = 2 :=
  ⟨(downloadMedia_tasks_claimed_once fetchAllOk [itemA, itemB] [] 1 sched0 _
      (by decide) (by decide) rfl (by decide)).1,
   (downloadMedia_tasks_claimed_once fetchAllOk [itemA, itemB] [] 1 sched0 _
      (by decide) (by decide) rfl (by decide)).2.1⟩

/-! ### C6: idempotence over destination state -/

/-- The auxiliary invariant when every destination is already present: no
fetch is ever started, nothing fails, and no worker is ever past the
existence check. -/
structure C6Inv (s : DState) : Prop where
  no_fetch : s.fetchLog = []
  no_fail : s.doneFail = []
  no_active : ∀ ph ∈ s.workers, ∀ it, ph ≠ WPhase.fetching it ∧ ph ≠ WPhase.writing it

theorem item_in_items_of_inflight {f : DItem → FetchOutcome} {items : List DItem}
    {fs₀ : List String} {s : DState} (inv : DInv f items fs₀ s) {it : DItem}
    (hmem : it ∈ inflightItems s) : it ∈ items := by
  have hc : it ∈ s.claimed := by
    rw [← Multiset.mem_coe, inv.claimed_parts]
    rw [Multiset.mem_add, Multiset.mem_add]
    exact Or.inl (Or.inl (Multiset.mem_coe.mpr hmem))
  have hm : it ∈ ((items : List DItem) : Multiset DItem) := by
    rw [← inv.pool_claimed, Multiset.mem_add]
    exact Or.inr (Multiset.mem_coe.mpr hc)
  exact Multiset.mem_coe.mp hm

theorem C6Inv_step (f : DItem → FetchOutcome) (items : List DItem) (fs₀ : List String)
    (s : DState) (hall : ∀ i ∈ items, i.dest ∈ fs₀)
    (inv : DInv f items fs₀ s) (c6 : C6Inv s) (w : Nat) :
    C6Inv (stepWorker f s w) := by
  cases hw : s.workers[w]? with
  | none =>
    rw [stepWorker_oob f s w hw]
    exact c6
  | some ph =>
    have hwlt : w < s.workers.length := (List.getElem?_eq_some.mp hw).1
    have hwget : s.workers[w] = ph := (List.getElem?_eq_some.mp hw).2
    have hphmem : ph ∈ s.workers := by
      rw [← hwget]
      exact List.getElem_mem hwlt
    cases ph with
    | done =>
      rw [stepWorker_done f s w hw]
      exact c6
    | idle =>
      cases hp : s.pool.getLast? with
      | none =>
        rw [stepWorker_idle_empty f s w hw hp]
        refine ⟨c6.no_fetch, c6.no_fail, ?_⟩
        intro ph' hmem it
        rcases List.mem_or_eq_of_mem_set hmem with hmem | hmem
        · exact c6.no_active ph' hmem it
        · rw [hmem]
          exact ⟨(by intro h; cases h), (by intro h; cases h)⟩
      | some item =>
        rw [stepWorker_idle_pop f s w item hw hp]
        refine ⟨c6.no_fetch, c6.no_fail, ?_⟩
        intro ph' hmem it
        rcases List.mem_or_eq_of_mem_set hmem with hmem | hmem
        · exact c6.no_active ph' hmem it
        · rw [hmem]
          exact ⟨(by intro h; cases h), (by intro h; cases h)⟩
    | check it =>
      have hinf : it ∈ inflightItems s := by
        rw [inflightItems]
        exact List.mem_filterMap.mpr ⟨.check it, hphmem, rfl⟩
      have hitems : it ∈ items := item_in_items_of_inflight inv hinf
      have hm : it.dest ∈ s.fs := by
        rw [inv.fs_eq]
        exact List.mem_append_right _ (hall it hitems)
      rw [stepWorker_check_skip f s w it hw hm]
      refine ⟨c6.no_fetch, c6.no_fail, ?_⟩
      intro ph' hmem it'
      rcases List.mem_or_eq_of_mem_set hmem with hmem | hmem
      · exact c6.no_active ph' hmem it'
      · rw [hmem]
        exact ⟨(by intro h; cases h), (by intro h; cases h)⟩
    | fetching it =>
      exact absurd rfl (c6.no_active _ hphmem it).1
    | writing it =>
      exact absurd rfl (c6.no_active _ hphmem it).2

theorem C6_run (f : DItem → FetchOutcome) (items : List DItem) (fs₀ : List String)
    (hall : ∀ i ∈ items, i.dest ∈ fs₀) (sched : List Nat) (s : DState)
    (hinv : DInv f items fs₀ s) (hc6 : C6Inv s) :
    DInv f items fs₀ (runSched f sched s) ∧ C6Inv (runSched f sched s) := by
  induction sched generalizing s with
  | nil => exact ⟨hinv, hc6⟩
  | cons w ws ih =>
    exact ih _ (DInv_step f items fs₀ s hinv w) (C6Inv_step f items fs₀ s hall hinv hc6 w)

theorem downloadRun_all_present (f : DItem → FetchOutcome) (items : List DItem)
    (fs₀ : List String) (W : Nat) (sched : List Nat) (s : DState)
    (hW : 0 < W) (hall : ∀ i ∈ items, i.dest ∈ fs₀)
    (hrun : runSched f sched (initState W items fs₀) = s) (hdone : allDone s) :
    s.fetchLog = [] ∧ s.completed = items.length ∧ s.failed = 0 := by
  have hc60 : C6Inv (initState W items fs₀) := by
    refine ⟨rfl, rfl, ?_⟩
    intro ph hph it
    rw [initState] at hph
    rw [List.eq_of_mem_replicate hph]
    exact ⟨(by intro h; cases h), (by intro h; cases h)⟩
  obtain ⟨inv, c6⟩ := C6_run f items fs₀ hall sched _ (DInv_init f items fs₀ W hW) hc60
  rw [hrun] at inv c6
  obtain ⟨_, _, hcf, _, _⟩ := DInv_terminal f items fs₀ s inv hdone
  have hfail : s.failed = 0 := by
    rw [inv.failed_eq, c6.no_fail]
    rfl
  refine ⟨c6.no_fetch, ?_, hfail⟩
  omega

/-- C6: the scheduler is idempotent over destination state.  First conjunct:
in any complete run in which every task's destination already exists, no
network fetch is performed and every task is counted as succeeded.  Second
conjunct: consequently, running the scheduler a second time over the same
task list, with the destinations from a fully successful first run left in
place, performs zero network fetches and reports every task as succeeded. -/
theorem downloadMedia_idempotent_resume :
    (∀ (f : DItem → FetchOutcome) (items : List DItem) (fs₀ : List String) (W : Nat)
        (sched : List Nat) (s : DState), 0 < W →
      (∀ i ∈ items, i.dest ∈ fs₀) →
      runSched f sched (initState W items fs₀) = s → allDone s →
      s.fetchLog = [] ∧ s.completed = items.length ∧ s.failed = 0) ∧
    (∀ (f : DItem → FetchOutcome) (items : List DItem) (fs₀ : List String)
        (W₁ W₂ : Nat) (sched₁ sched₂ : List Nat) (s₁ s₂ : DState),
      0 < W₁ → 0 < W₂ →
      runSched f sched₁ (initState W₁ items fs₀) = s₁ → allDone s₁ → s₁.failed = 0 →
      runSched f sched₂ (initState W₂ items s₁.fs) = s₂ → allDone s₂ →
      s₂.fetchLog = [] ∧ s₂.completed = items.length ∧ s₂.failed = 0) := by
  refine ⟨fun f items fs₀ W sched s hW hall hrun hdone =>
    downloadRun_all_present f items fs₀ W sched s hW hall hrun hdone, ?_⟩
  intro f items fs₀ W₁ W₂ sched₁ sched₂ s₁ s₂ hW₁ hW₂ hrun₁ hdone₁ hfail₁ hrun₂ hdone₂
  have inv₁ := DInv_runSched f items fs₀ sched₁ _ (DInv_init f items fs₀ W₁ hW₁)
  rw [hrun₁] at inv₁
  obtain ⟨_, hparts, _, _, _⟩ := DInv_terminal f items fs₀ s₁ inv₁ hdone₁
  have hdf : s₁.doneFail = [] := by
    have hl := inv₁.failed_eq
    rw [hfail₁] at hl
    exact List.eq_nil_of_length_eq_zero hl.symm
  have hok : ∀ i ∈ items, i ∈ s₁.doneOk := by
    intro i hi
    have hm : i ∈ ((s₁.doneOk : Multiset DItem) + ↑s₁.doneFail) := by
      rw [hparts]
      exact Multiset.mem_coe.mpr hi
    rw [Multiset.mem_add] at hm
    rcases hm with h | h
    · exact Multiset.mem_coe.mp h
    · rw [hdf] at h
      simp [mcoe_nil] at h
  have hall₂ : ∀ i ∈ items, i.dest ∈ s₁.fs := fun i hi => inv₁.doneOk_dest i (hok i hi)
  exact downloadRun_all_present f items s₁.fs W₂ sched₂ s₂ hW₂ hall₂ hrun₂ hdone₂

/-- Witness for idempotent resume: a run over already-present destinations
performs no fetch, and a second run after a clean first run performs no
fetch either. -/
theorem downloadMedia_idempotent_resume_witness :
    ((runSched fetchAllOk sched0
        (initState 1 [itemA, itemB] ["d/a.jpg", "d/b.jpg"])).fetchLog = [] ∧
      (runSched fetchAllOk sched0
        (initState 1 [itemA, itemB] ["d/a.jpg", "d/b.jpg"])).completed =
        [itemA, itemB].length ∧
      (runSched fetchAllOk sched0
        (initState 1 [itemA, itemB] ["d/a.jpg", "d/b.jpg"])).failed = 0) ∧
    ((runSched fetchAllOk sched0 (initState 1 [itemA, itemB]
        (runSched fetchAllOk sched0 (initState 1 [itemA, itemB] [])).fs)).fetchLog = [] ∧
      (runSched fetchAllOk sched0 (initState 1 [itemA, itemB]
        (runSched fetchAllOk sched0 (initState 1 [itemA, itemB] [])).fs)).completed =
        [itemA, itemB].length ∧
      (runSched fetchAllOk sched0 (initState 1 [itemA, itemB]
        (runSched fetchAllOk sched0 (initState 1 [itemA, itemB] [])).fs)).failed = 0) :=
  ⟨downloadMedia_idempotent_resume.1 fetchAllOk [itemA, itemB] ["d/a.jpg", "d/b.jpg"]
      1 sched0 _ (by decide) (by decide) rfl (by decide),
   downloadMedia_idempotent_resume.2 fetchAllOk [itemA, itemB] [] 1 1 sched0 sched0
      _ _ (by decide) (by decide) rfl (by decide) (by decide) rfl (by decide)⟩

/-! ### C7: partial-failure isolation -/

/-- The extra invariant for the one-failing-task scenario: every successfully
finished task really had a successful fetch (no task ever succeeds by
skipping). -/
structure C7Inv (f : DItem → FetchOutcome) (s : DState) : Prop where
  ok_done : ∀ i ∈ s.doneOk, f i = .ok

theorem mem_items_of_parts {f : DItem → FetchOutcome} {items : List DItem}
    {fs₀ : List String} {s : DState} (inv : DInv f items fs₀ s) {it : DItem}
    (h : it ∈ inflightItems s ∨ it ∈ s.doneOk ∨ it ∈ s.doneFail) : it ∈ items := by
  have hc : it ∈ s.claimed := by
    rw [← Multiset.mem_coe, inv.claimed_parts, Multiset.mem_add, Multiset.mem_add]
    rcases h with h | h | h
    · exact Or.inl (Or.inl (Multiset.mem_coe.mpr h))
    · exact Or.inl (Or.inr (Multiset.mem_coe.mpr h))
    · exact Or.inr (Multiset.mem_coe.mpr h)
  have hm : it ∈ ((items : List DItem) : Multiset DItem) := by
    rw [← inv.pool_claimed, Multiset.mem_add]
    exact Or.inr (Multiset.mem_coe.mpr hc)
  exact Multiset.mem_coe.mp hm

theorem claimed_nodup {f : DItem → FetchOutcome} {items : List DItem}
    {fs₀ : List String} {s : DState} (inv : DInv f items fs₀ s)
    (hnd : items.Nodup) : s.claimed.Nodup := by
  have hperm : (s.pool ++ s.claimed).Perm items := by
    rw [← Multiset.coe_eq_coe, mcoe_append]
    exact inv.pool_claimed
  have := (hperm.symm.nodup hnd)
  exact (List.nodup_append.mp this).2.1

theorem parts_nodup {f : DItem → FetchOutcome} {items : List DItem}
    {fs₀ : List String} {s : DState} (inv : DInv f items fs₀ s)
    (hnd : items.Nodup) : (inflightItems s ++ s.doneOk ++ s.doneFail).Nodup := by
  have hperm : s.claimed.Perm (inflightItems s ++ s.doneOk ++ s.doneFail) := by
    rw [← Multiset.coe_eq_coe, mcoe_append, mcoe_append]
    exact inv.claimed_parts
  exact hperm.nodup (claimed_nodup inv hnd)

theorem C7Inv_step (f : DItem → FetchOutcome) (items : List DItem) (fs₀ : List String)
    (s : DState) (hnodup : (items.map (fun i => i.dest)).Nodup)
    (habsent : ∀ i ∈ items, i.dest ∉ fs₀)
    (inv : DInv f items fs₀ s) (c7 : C7Inv f s) (w : Nat) :
    C7Inv f (stepWorker f s w) := by
  have hndi : items.Nodup := List.Nodup.of_map _ hnodup
  cases hw : s.workers[w]? with
  | none =>
    rw [stepWorker_oob f s w hw]
    exact c7
  | some ph =>
    have hwlt : w < s.workers.length := (List.getElem?_eq_some.mp hw).1
    have hwget : s.workers[w] = ph := (List.getElem?_eq_some.mp hw).2
    have hphmem : ph ∈ s.workers := by
      rw [← hwget]
      exact List.getElem_mem hwlt
    cases ph with
    | done =>
      rw [stepWorker_done f s w hw]
      exact c7
    | idle =>
      cases hp : s.pool.getLast? with
      | none =>
        rw [stepWorker_idle_empty f s w hw hp]
        exact ⟨c7.ok_done⟩
      | some item =>
        rw [stepWorker_idle_pop f s w item hw hp]
        exact ⟨c7.ok_done⟩
    | check it =>
      have hinf : it ∈ inflightItems s := by
        rw [inflightItems]
        exact List.mem_filterMap.mpr ⟨.check it, hphmem, rfl⟩
      by_cases hm : it.dest ∈ s.fs
      · exfalso
        have hitems : it ∈ items := mem_items_of_parts inv (Or.inl hinf)
        have hnotfs : it.dest ∉ fs₀ := habsent it hitems
        have hw2 : it.dest ∈ s.written.map (fun i => i.dest) := by
          rw [inv.fs_eq] at hm
          rcases List.mem_append.mp hm with h | h
          · exact h
          · exact absurd h hnotfs
        obtain ⟨j, hjw, hjd⟩ := List.mem_map.mp hw2
        have hjok : j ∈ s.doneOk := by
          have := inv.written_sub
          have hsub : s.written ⊆ s.doneOk := fun a ha =>
            Multiset.mem_coe.mp (Multiset.mem_of_le inv.written_sub
              (Multiset.mem_coe.mpr ha))
          exact hsub hjw
        have hjitems : j ∈ items := mem_items_of_parts inv (Or.inr (Or.inl hjok))
        have hji : j = it :=
          List.inj_on_of_nodup_map hnodup hjitems hitems hjd
        rw [hji] at hjok
        have hnd := parts_nodup inv hndi
        rw [List.append_assoc] at hnd
        rcases List.nodup_append.mp hnd with ⟨_, _, hdisj⟩
        exact hdisj hinf (List.mem_append.mpr (Or.inl hjok))
      · rw [stepWorker_check_fetch f s w it hw hm]
        exact ⟨c7.ok_done⟩
    | fetching it =>
      by_cases hr : f it = .ok
      · rw [stepWorker_fetch_ok f s w it hw hr]
        exact ⟨c7.ok_done⟩
      · rw [stepWorker_fetch_err f s w it hw hr]
        exact ⟨c7.ok_done⟩
    | writing it =>
      rw [stepWorker_writing f s w it hw]
      refine ⟨?_⟩
      intro i hi
      rcases List.mem_cons.mp hi with hi | hi
      · rw [hi]
        exact inv.writing_ok _ hphmem it rfl
      · exact c7.ok_done i hi

theorem C7_run (f : DItem → FetchOutcome) (items : List DItem) (fs₀ : List String)
    (hnodup : (items.map (fun i => i.dest)).Nodup)
    (habsent : ∀ i ∈ items, i.dest ∉ fs₀) (sched : List Nat) (s : DState)
    (hinv : DInv f items fs₀ s) (hc7 : C7Inv f s) :
    DInv f items fs₀ (runSched f sched s) ∧ C7Inv f (runSched f sched s) := by
  induction sched generalizing s with
  | nil => exact ⟨hinv, hc7⟩
  | cons w ws ih =>
    exact ih _ (DInv_step f items fs₀ s hinv w)
      (C7Inv_step f items fs₀ s hnodup habsent hinv hc7 w)

theorem nodup_all_eq_singleton {α : Type} {l : List α} {a : α} (hnd : l.Nodup)
    (hmem : a ∈ l) (hall : ∀ x ∈ l, x = a) : l = [a] := by
  cases l with
  | nil => cases hmem
  | cons b t =>
    have hb : b = a := hall b (List.mem_cons_self _ _)
    have ht : t = [] := by
      cases t with
      | nil => rfl
      | cons c u =>
        have hc : c = a := hall c (List.mem_cons_of_mem _ (List.mem_cons_self _ _))
        rcases List.pairwise_cons.mp hnd with ⟨hbt, _⟩
        exact absurd (hb.trans hc.symm) (fun he => hbt c (List.mem_cons_self _ _) he)
    rw [hb, ht]

/-- C7: a single task failure never cancels the batch.  With pairwise
distinct destinations, none pre-existing, exactly one task whose fetch fails
and all others succeeding, any complete run processes every task and reports
N - 1 succeeded and 1 failed, and the failure log holds exactly the failing
destination's basename with its error message. -/
theorem downloadMedia_partial_failure_isolated (f : DItem → FetchOutcome)
    (items : List DItem) (fItem : DItem) (fs₀ : List String) (W : Nat)
    (sched : List Nat) (s : DState)
    (hW : 0 < W)
    (hnodup : (items.map (fun i => i.dest)).Nodup)
    (habsent : ∀ i ∈ items, i.dest ∉ fs₀)
    (hfmem : fItem ∈ items)
    (hfbad : f fItem ≠ .ok)
    (hothers : ∀ i ∈ items, i ≠ fItem → f i = .ok)
    (hrun : runSched f sched (initState W items fs₀) = s)
    (hdone : allDone s) :
    s.completed = items.length - 1 ∧ s.failed = 1 ∧
    s.warnLog = [(basename fItem.dest, fetchErrMsg (f fItem))] := by
  obtain ⟨inv, c7⟩ := C7_run f items fs₀ hnodup habsent sched _
    (DInv_init f items fs₀ W hW) ⟨fun i hi => absurd hi (List.not_mem_nil i)⟩
  rw [hrun] at inv c7
  have hndi := List.Nodup.of_map _ hnodup
  obtain ⟨hcl, hparts, hcf, hpool, hinf⟩ := DInv_terminal f items fs₀ s inv hdone
  have hdf_sub : ∀ i ∈ s.doneFail, i = fItem := by
    intro i hi
    have hitems : i ∈ items := mem_items_of_parts inv (Or.inr (Or.inr hi))
    by_contra hne
    exact (inv.doneFail_bad i hi) (hothers i hitems hne)
  have hfsplit : fItem ∈ s.doneOk ∨ fItem ∈ s.doneFail := by
    have hm : fItem ∈ ((s.doneOk : Multiset DItem) + ↑s.doneFail) := by
      rw [hparts]
      exact Multiset.mem_coe.mpr hfmem
    rw [Multiset.mem_add] at hm
    rcases hm with h | h
    · exact Or.inl (Multiset.mem_coe.mp h)
    · exact Or.inr (Multiset.mem_coe.mp h)
  have hfdf : fItem ∈ s.doneFail := by
    rcases hfsplit with h | h
    · exact absurd (c7.ok_done fItem h) hfbad
    · exact h
  have hnd := parts_nodup inv hndi
  have hdfnd : s.doneFail.Nodup := (List.nodup_append.mp hnd).2.1
  have hdfeq : s.doneFail = [fItem] := nodup_all_eq_singleton hdfnd hfdf hdf_sub
  have hfailed : s.failed = 1 := by
    rw [inv.failed_eq, hdfeq]
    rfl
  have hlen : 0 < items.length := List.length_pos_of_mem hfmem
  refine ⟨by omega, hfailed, ?_⟩
  rw [inv.warn_eq, hdfeq]
  rfl

def fetchBfails : DItem → FetchOutcome :=
  fun i => if i = itemB then .httpErr 404 else .ok

/-- Witness for partial-failure isolation: one of two tasks fails with an
HTTP error; the run reports one success, one failure, and the failure log
line. -/
theorem downloadMedia_partial_failure_isolated_witness :
    (runSched fetchBfails sched0 (initState 1 [itemA, itemB] [])).completed =
      [itemA, itemB].length - 1 ∧
    (runSched fetchBfails sched0 (initState 1 [itemA, itemB] [])).failed = 1 ∧
    (runSched fetchBfails sched0 (initState 1 [itemA, itemB] [])).warnLog =
      [(basename itemB.dest, fetchErrMsg (fetchBfails itemB))] :=
  downloadMedia_partial_failure_isolated fetchBfails [itemA, itemB] itemB [] 1 sched0 _
    (by decide) (by decide) (by decide) (by decide) (by decide) (by decide) rfl (by decide)

/-- Witness for pagination completeness: a two-document collection in
ascending (created, name) order is returned in full by both strategies. -/
theorem pagination_complete_witness :
    runQueryAll (fakeQueryServer [docY, docX]) "p" "c" [] "created" 3 =
      .ok [docY, docX] ∧
    listAll (fakeListServer [docY, docX]) "p/c" [] none 3 = .ok [docY, docX] :=
  ⟨(pagination_complete [docY, docX] "created" (by decide) (by decide)
      "p" "c" "p/c" [] none 3 3 (by decide) (by decide)).1,
   (pagination_complete [docY, docX] "created" (by decide) (by decide)
      "p" "c" "p/c" [] none 3 3 (by decide) (by decide)).2.1⟩
